import Mathlib

/-!
# Verification of the UMLS Inconsistency Checker

A shallow embedding of `umls_inconsistency_checker.py`:

* `parse_mrrel` — canonicalizes raw MRREL relation records into hierarchy
  (parent/child) and dominance (broader-than) edge sets, tracking self-loops,
  duplicate assertions and observed relation codes;
* `detect_cycles` — depth-first cycle detection with dedup by vertex set;
* `detect_broader_violations` — all-pairs mutual-reachability violations
  with shortest-path witness cycles.

Concept identifiers and relation codes are modelled as `List Char` so that
the character-level stripping and splitting the parser performs is embedded
faithfully.  Python sets are modelled as `Finset`, the `Counter` as a
function into `Nat`.
-/

namespace UMLS

/-- Identifiers (CUIs) and relation codes: raw character strings. -/
abbrev Ident := List Char

/-- A directed edge between concept identifiers. -/
abbrev Edge := Ident × Ident

/-! ## Character-level helpers: `str.strip` and `str.split("|")` -/

/-- Drop leading whitespace (`str.lstrip`). -/
def trimLeft (l : List Char) : List Char := l.dropWhile Char.isWhitespace

/-- Drop trailing whitespace (`str.rstrip`). -/
def trimRight (l : List Char) : List Char :=
  (l.reverse.dropWhile Char.isWhitespace).reverse

/-- Python `str.strip()`: drop surrounding whitespace. -/
def strip (l : List Char) : List Char := trimRight (trimLeft l)

/-- Python `line.split("|")`: split on the bar character; `"".split("|") = [""]`. -/
def splitBar : List Char → List (List Char)
  | [] => [[]]
  | c :: cs =>
    match splitBar cs with
    | [] => [[]]
    | h :: t => if c = '|' then [] :: h :: t else (c :: h) :: t

/-! ## The Edge Classifier state (`parse_mrrel` accumulators) -/

/-- The five accumulators built up by `parse_mrrel`:
`parent_child_edges`, `broader_than_edges`, `duplicate_edges` (a `Counter`),
`self_loops` and `relationship_types`. -/
structure ParseState where
  parent_child_edges : Finset Edge
  broader_than_edges : Finset Edge
  duplicate_edges : Edge → Nat
  self_loops : Finset (Ident × Ident)
  relationship_types : Finset Ident

/-- The empty initial state of `parse_mrrel`. -/
def initState : ParseState :=
  ⟨∅, ∅, fun _ => 0, ∅, ∅⟩

/-- `duplicate_edges[edge] += 1`. -/
def bump (f : Edge → Nat) (e : Edge) : Edge → Nat :=
  fun x => if x = e then f x + 1 else f x

/-- The body of the parsing loop, applied to the fields
`parts = line.strip().split("|")` of one input line: classify the record
into a self-loop or a canonical hierarchy/dominance edge. -/
def processParts (st : ParseState) (parts : List (List Char)) : ParseState :=
  if parts.length < 5 then st
  else
    let source := strip (parts.getD 0 [])
    let relation := strip (parts.getD 3 [])
    let target := strip (parts.getD 4 [])
    let st1 := { st with relationship_types := insert relation st.relationship_types }
    if source = target then
      { st1 with self_loops := insert (source, relation) st1.self_loops }
    else if relation = "CHD".toList then
      { st1 with parent_child_edges := insert (target, source) st1.parent_child_edges,
                 duplicate_edges := bump st1.duplicate_edges (target, source) }
    else if relation = "PAR".toList then
      { st1 with parent_child_edges := insert (source, target) st1.parent_child_edges,
                 duplicate_edges := bump st1.duplicate_edges (source, target) }
    else if relation = "RB".toList then
      { st1 with broader_than_edges := insert (source, target) st1.broader_than_edges,
                 duplicate_edges := bump st1.duplicate_edges (source, target) }
    else if relation = "RN".toList then
      { st1 with broader_than_edges := insert (target, source) st1.broader_than_edges,
                 duplicate_edges := bump st1.duplicate_edges (target, source) }
    else st1

/-- Process one raw input line: strip it, split on `"|"`, classify. -/
def processLine (st : ParseState) (line : List Char) : ParseState :=
  processParts st (splitBar (strip line))

/-- `parse_mrrel`, with the input resource given as its list of lines. -/
def parse_mrrel (lines : List (List Char)) : ParseState :=
  lines.foldl processLine initState

/-- `parse_mrrel` including the up-front existence check on the input
resource: the `FileNotFoundError` raised when the path does not exist is
modelled as `Except.error`; the boolean says whether the resource exists. -/
def parse_mrrel_checked (fileExists : Bool) (lines : List (List Char)) :
    Except (List Char) ParseState :=
  if fileExists then Except.ok (parse_mrrel lines)
  else Except.error "UMLS file not found".toList

/-! ## Canonical-edge abstraction of one record -/

/-- The canonical edge asserted by a record with the given fields, if any:
`none` for malformed records, self-loops and unrecognized relation codes.
Mirrors the classification table of `processParts`. -/
def canonEdgeParts (parts : List (List Char)) : Option Edge :=
  if parts.length < 5 then none
  else
    let source := strip (parts.getD 0 [])
    let relation := strip (parts.getD 3 [])
    let target := strip (parts.getD 4 [])
    if source = target then none
    else if relation = "CHD".toList then some (target, source)
    else if relation = "PAR".toList then some (source, target)
    else if relation = "RB".toList then some (source, target)
    else if relation = "RN".toList then some (target, source)
    else none

/-- The canonical edge asserted by one raw input line, if any. -/
def canonEdge (line : List Char) : Option Edge :=
  canonEdgeParts (splitBar (strip line))

/-- Like `canonEdge` but restricted to the hierarchy family (`CHD`/`PAR`). -/
def canonHierParts (parts : List (List Char)) : Option Edge :=
  if parts.length < 5 then none
  else
    let source := strip (parts.getD 0 [])
    let relation := strip (parts.getD 3 [])
    let target := strip (parts.getD 4 [])
    if source = target then none
    else if relation = "CHD".toList then some (target, source)
    else if relation = "PAR".toList then some (source, target)
    else none

/-- The canonical hierarchy edge asserted by one raw input line, if any. -/
def canonHier (line : List Char) : Option Edge :=
  canonHierParts (splitBar (strip line))

/-- A raw line is a (well-formed) hierarchy relation record: five or more
fields and relation code `PAR` or `CHD`. -/
def isHierRecord (line : List Char) : Bool :=
  let parts := splitBar (strip line)
  decide (5 ≤ parts.length) &&
    (decide (strip (parts.getD 3 []) = "PAR".toList) ||
     decide (strip (parts.getD 3 []) = "CHD".toList))

/-- A raw line is a well-formed record whose source and target identifiers
coincide (a self-loop record). -/
def isSelfLoopRecord (line : List Char) : Bool :=
  let parts := splitBar (strip line)
  decide (5 ≤ parts.length) && decide (strip (parts.getD 0 []) = strip (parts.getD 4 []))

/-! ## Shape lemmas for one parsing step -/

theorem bump_apply (f : Edge → Nat) (e x : Edge) :
    bump f e x = if x = e then f x + 1 else f x := rfl

/-- Case analysis on one classification step: either the record asserts no
canonical edge and all three edge-related accumulators are untouched, or it
asserts exactly one canonical edge which is inserted into exactly one family
and counted once. -/
theorem processParts_shape (st : ParseState) (parts : List (List Char)) :
    (canonEdgeParts parts = none ∧ canonHierParts parts = none ∧
      (processParts st parts).parent_child_edges = st.parent_child_edges ∧
      (processParts st parts).broader_than_edges = st.broader_than_edges ∧
      (processParts st parts).duplicate_edges = st.duplicate_edges) ∨
    (∃ e, canonEdgeParts parts = some e ∧
      (processParts st parts).duplicate_edges = bump st.duplicate_edges e ∧
      (((processParts st parts).parent_child_edges = insert e st.parent_child_edges ∧
        (processParts st parts).broader_than_edges = st.broader_than_edges ∧
        canonHierParts parts = some e) ∨
       ((processParts st parts).parent_child_edges = st.parent_child_edges ∧
        (processParts st parts).broader_than_edges = insert e st.broader_than_edges ∧
        canonHierParts parts = none))) := by
  unfold processParts canonEdgeParts canonHierParts
  dsimp only
  split_ifs <;>
    first
      | exact Or.inl ⟨rfl, rfl, rfl, rfl, rfl⟩
      | exact Or.inr ⟨_, rfl, rfl, Or.inl ⟨rfl, rfl, rfl⟩⟩
      | exact Or.inr ⟨_, rfl, rfl, Or.inr ⟨rfl, rfl, rfl⟩⟩

/-- One parsing step changes the duplicate counter at a key by exactly the
contribution of that line's canonical edge. -/
theorem processLine_dupes (st : ParseState) (line : List Char) (e : Edge) :
    (processLine st line).duplicate_edges e
      = st.duplicate_edges e + (if canonEdge line = some e then 1 else 0) := by
  unfold processLine canonEdge
  rcases processParts_shape st (splitBar (strip line)) with
    ⟨hc, _, _, _, hd⟩ | ⟨e', he', hd, _⟩
  · rw [hd, hc]
    simp
  · rw [hd, he', bump_apply]
    by_cases h : e = e'
    all_goals simp [h, eq_comm]

/-- One parsing step extends the union of the two edge sets by exactly the
line's canonical edge. -/
theorem processLine_mem_union (st : ParseState) (line : List Char) (e : Edge) :
    (e ∈ (processLine st line).parent_child_edges ∨
      e ∈ (processLine st line).broader_than_edges) ↔
    (e ∈ st.parent_child_edges ∨ e ∈ st.broader_than_edges ∨ canonEdge line = some e) := by
  unfold processLine canonEdge
  rcases processParts_shape st (splitBar (strip line)) with
    ⟨hc, _, hpc, hbt, _⟩ | ⟨e', he', _, ⟨hpc, hbt, _⟩ | ⟨hpc, hbt, _⟩⟩
  · rw [hpc, hbt, hc]; simp
  · rw [hpc, hbt, he']; simp only [Finset.mem_insert, Option.some.injEq]; tauto
  · rw [hpc, hbt, he']; simp only [Finset.mem_insert, Option.some.injEq]; tauto

/-- One parsing step extends the hierarchy edge set by exactly the line's
canonical hierarchy edge. -/
theorem processLine_pc (st : ParseState) (line : List Char) :
    (processLine st line).parent_child_edges
      = st.parent_child_edges ∪ (canonHier line).toFinset := by
  unfold processLine canonHier
  rcases processParts_shape st (splitBar (strip line)) with
    ⟨_, hch, hpc, _, _⟩ | ⟨e', _, _, ⟨hpc, _, hch⟩ | ⟨hpc, _, hch⟩⟩ <;>
    rw [hpc, hch] <;>
    simp [Finset.insert_eq, Finset.union_comm]

/-- The duplicate counter of `parse_mrrel` counts, at each key, the number of
input lines whose canonical edge is that key. -/
theorem parse_dupes_countP (lines : List (List Char)) (st : ParseState) (e : Edge) :
    ((lines.foldl processLine st).duplicate_edges e)
      = st.duplicate_edges e + lines.countP (fun l => decide (canonEdge l = some e)) := by
  induction lines generalizing st with
  | nil => simp
  | cons l ls ih =>
    rw [List.foldl_cons, ih, processLine_dupes, List.countP_cons]
    by_cases h : canonEdge l = some e <;> simp [h] <;> omega

/-- The hierarchy edge set of `parse_mrrel` is the set of canonical hierarchy
edges of the input lines. -/
theorem parse_pc_eq (lines : List (List Char)) (st : ParseState) :
    (lines.foldl processLine st).parent_child_edges
      = st.parent_child_edges ∪ (lines.filterMap canonHier).toFinset := by
  induction lines generalizing st with
  | nil => simp
  | cons l ls ih =>
    rw [List.foldl_cons, ih, processLine_pc, List.filterMap_cons]
    cases h : canonHier l <;>
      simp [h, Finset.insert_eq, Finset.union_comm, Finset.union_left_comm,
        Finset.union_assoc]

/-- The key set of the duplicate counter stays equal to the union of the two
canonical edge sets across the whole input. -/
theorem parse_keys (lines : List (List Char)) (st : ParseState)
    (h : ∀ e, st.duplicate_edges e ≠ 0 ↔
      (e ∈ st.parent_child_edges ∨ e ∈ st.broader_than_edges)) (e : Edge) :
    (lines.foldl processLine st).duplicate_edges e ≠ 0 ↔
      (e ∈ (lines.foldl processLine st).parent_child_edges ∨
       e ∈ (lines.foldl processLine st).broader_than_edges) := by
  induction lines generalizing st with
  | nil => exact h e
  | cons l ls ih =>
    rw [List.foldl_cons]
    refine ih (processLine st l) (fun e' => ?_)
    rw [processLine_mem_union, processLine_dupes]
    by_cases hc : canonEdge l = some e'
    · simp [hc]
    · simpa [hc] using h e'

/-! ## Counting lemmas for the statistics claim -/

/-- A line asserting a canonical hierarchy edge is a hierarchy record. -/
theorem canonHier_isHier (line : List Char) (e : Edge) (h : canonHier line = some e) :
    isHierRecord line = true := by
  unfold canonHier canonHierParts at h
  unfold isHierRecord
  dsimp only at h ⊢
  split_ifs at h with h1 h2 h3 h4 <;> simp_all [Nat.not_lt]

/-- A hierarchy record that is a self-loop asserts no canonical hierarchy
edge. -/
theorem selfLoop_canonHier_none (line : List Char) (h : isSelfLoopRecord line = true) :
    canonHier line = none := by
  unfold isSelfLoopRecord at h
  unfold canonHier canonHierParts
  dsimp only at h ⊢
  simp only [Bool.and_eq_true, decide_eq_true_eq] at h
  rw [if_neg (by omega), if_pos h.2]

theorem length_filterMap_eq_countP {α β : Type} (f : α → Option β) (l : List α) :
    (l.filterMap f).length = l.countP (fun a => (f a).isSome) := by
  induction l with
  | nil => rfl
  | cons a t ih =>
    rw [List.filterMap_cons, List.countP_cons]
    cases h : f a <;> simp [h, ih]

theorem countP_lt_of_witness {α : Type} (p q : α → Bool) (l : List α)
    (hpq : ∀ a ∈ l, p a → q a) (a : α) (ha : a ∈ l) (hqa : q a = true)
    (hpa : p a = false) : l.countP p < l.countP q := by
  induction l with
  | nil => cases ha
  | cons b t ih =>
    rw [List.countP_cons, List.countP_cons]
    rcases List.mem_cons.mp ha with rfl | hat
    · rw [hqa, hpa]
      have : t.countP p ≤ t.countP q :=
        List.countP_mono_left (fun x hx => hpq x (List.mem_cons_of_mem _ hx))
      simp only [Bool.false_eq_true, if_false, if_true]
      omega
    · have h1 : t.countP p < t.countP q :=
        ih (fun x hx => hpq x (List.mem_cons_of_mem _ hx)) hat
      have h2 : (if p b = true then 1 else 0) ≤ (if q b = true then 1 else 0) := by
        by_cases hb : p b = true
        · rw [if_pos hb, if_pos (hpq b (List.mem_cons_self b t) hb)]
        · rw [if_neg hb]; omega
      omega

theorem toFinset_card_lt_of_not_nodup {α : Type} [DecidableEq α] {l : List α}
    (h : ¬ l.Nodup) : l.toFinset.card < l.length := by
  refine lt_of_le_of_ne l.toFinset_card_le (fun he => h ?_)
  have hd : l.dedup.length = l.length := by rw [← List.card_toFinset, he]
  have hde : l.dedup = l := l.dedup_sublist.eq_of_length hd
  exact hde ▸ l.nodup_dedup

/-- The statistic `"Total Parent-Child Relationships"` that `main` hands to
the report sink: the size of the parent/child edge set from `parse_mrrel`. -/
def totalParentChildStat (lines : List (List Char)) : Nat :=
  (parse_mrrel lines).parent_child_edges.card

/-- The number of raw hierarchy relation records (well-formed lines whose
relation code is `PAR` or `CHD`) read from the input. -/
def rawHierCount (lines : List (List Char)) : Nat :=
  lines.countP isHierRecord

/-! ## Claims about the Edge Classifier -/

/-- **C3**: `parse_mrrel` normalizes both inverse relation codes of a family
onto the same canonical edge direction: a record `("C1","CHD","C2")` and a
record `("C2","PAR","C1")` both yield the hierarchy edge `(C2, C1)`, and a
record `("C3","RB","C4")` and a record `("C4","RN","C3")` both yield the
dominance edge `(C3, C4)`. -/
theorem claim_C3 (st : ParseState) (p1 p2 p3 p4 : List (List Char))
    (h1 : ¬ p1.length < 5) (h1s : strip (p1.getD 0 []) = "C1".toList)
    (h1r : strip (p1.getD 3 []) = "CHD".toList) (h1t : strip (p1.getD 4 []) = "C2".toList)
    (h2 : ¬ p2.length < 5) (h2s : strip (p2.getD 0 []) = "C2".toList)
    (h2r : strip (p2.getD 3 []) = "PAR".toList) (h2t : strip (p2.getD 4 []) = "C1".toList)
    (h3 : ¬ p3.length < 5) (h3s : strip (p3.getD 0 []) = "C3".toList)
    (h3r : strip (p3.getD 3 []) = "RB".toList) (h3t : strip (p3.getD 4 []) = "C4".toList)
    (h4 : ¬ p4.length < 5) (h4s : strip (p4.getD 0 []) = "C4".toList)
    (h4r : strip (p4.getD 3 []) = "RN".toList) (h4t : strip (p4.getD 4 []) = "C3".toList) :
    canonEdgeParts p1 = some ("C2".toList, "C1".toList) ∧
    canonEdgeParts p2 = some ("C2".toList, "C1".toList) ∧
    (processParts st p1).parent_child_edges
      = insert ("C2".toList, "C1".toList) st.parent_child_edges ∧
    (processParts st p2).parent_child_edges
      = insert ("C2".toList, "C1".toList) st.parent_child_edges ∧
    canonEdgeParts p3 = some ("C3".toList, "C4".toList) ∧
    canonEdgeParts p4 = some ("C3".toList, "C4".toList) ∧
    (processParts st p3).broader_than_edges
      = insert ("C3".toList, "C4".toList) st.broader_than_edges ∧
    (processParts st p4).broader_than_edges
      = insert ("C3".toList, "C4".toList) st.broader_than_edges := by
  refine ⟨?_, ?_, ?_, ?_, ?_, ?_, ?_, ?_⟩ <;>
    simp only [canonEdgeParts, processParts]
  · rw [h1s, h1r, h1t, if_neg h1, if_neg (by decide), if_pos rfl]
  · rw [h2s, h2r, h2t, if_neg h2, if_neg (by decide), if_neg (by decide), if_pos rfl]
  · rw [h1s, h1r, h1t, if_neg h1, if_neg (by decide), if_pos rfl]
  · rw [h2s, h2r, h2t, if_neg h2, if_neg (by decide), if_neg (by decide), if_pos rfl]
  · rw [h3s, h3r, h3t, if_neg h3, if_neg (by decide), if_neg (by decide),
      if_neg (by decide), if_pos rfl]
  · rw [h4s, h4r, h4t, if_neg h4, if_neg (by decide), if_neg (by decide),
      if_neg (by decide), if_neg (by decide), if_pos rfl]
  · rw [h3s, h3r, h3t, if_neg h3, if_neg (by decide), if_neg (by decide),
      if_neg (by decide), if_pos rfl]
  · rw [h4s, h4r, h4t, if_neg h4, if_neg (by decide), if_neg (by decide),
      if_neg (by decide), if_neg (by decide), if_pos rfl]

/-- Witness for **C3** at concrete five-field records. -/
theorem claim_C3_witness :
    (processParts initState ["C1".toList, [], [], "CHD".toList, "C2".toList]).parent_child_edges
      = insert ("C2".toList, "C1".toList) initState.parent_child_edges ∧
    (processParts initState ["C4".toList, [], [], "RN".toList, "C3".toList]).broader_than_edges
      = insert ("C3".toList, "C4".toList) initState.broader_than_edges := by
  have h := claim_C3 initState
    ["C1".toList, [], [], "CHD".toList, "C2".toList]
    ["C2".toList, [], [], "PAR".toList, "C1".toList]
    ["C3".toList, [], [], "RB".toList, "C4".toList]
    ["C4".toList, [], [], "RN".toList, "C3".toList]
    (by decide) (by decide) (by decide) (by decide)
    (by decide) (by decide) (by decide) (by decide)
    (by decide) (by decide) (by decide) (by decide)
    (by decide) (by decide) (by decide) (by decide)
  exact ⟨h.2.2.1, h.2.2.2.2.2.2.2⟩

/-- **C5**: a record whose source identifier equals its target identifier is
recorded in the self-loop set as `(identifier, relationCode)` and contributes
no edge to either edge set and nothing to the duplicate counter (hence to no
detected cycle or violation); concretely, `("C100","PAR","C100")` appears in
the self-loop set as `("C100","PAR")` only. -/
theorem claim_C5 :
    (∀ (st : ParseState) (parts : List (List Char)), ¬ parts.length < 5 →
        strip (parts.getD 0 []) = strip (parts.getD 4 []) →
        processParts st parts =
          { st with
            relationship_types := insert (strip (parts.getD 3 [])) st.relationship_types,
            self_loops := insert (strip (parts.getD 0 []), strip (parts.getD 3 []))
              st.self_loops }) ∧
    ((parse_mrrel ["C100|a|b|PAR|C100".toList]).self_loops
        = {("C100".toList, "PAR".toList)} ∧
     (parse_mrrel ["C100|a|b|PAR|C100".toList]).parent_child_edges = ∅ ∧
     (parse_mrrel ["C100|a|b|PAR|C100".toList]).broader_than_edges = ∅ ∧
     ∀ e, (parse_mrrel ["C100|a|b|PAR|C100".toList]).duplicate_edges e = 0) := by
  refine ⟨fun st parts h5 hst => ?_, by decide, by decide, by decide, fun e => rfl⟩
  unfold processParts
  dsimp only
  rw [if_neg h5, if_pos hst]

/-- Witness for **C5** at a concrete self-loop record. -/
theorem claim_C5_witness :
    processParts initState ["C9".toList, [], [], "RB".toList, "C9".toList]
      = { initState with
          relationship_types := insert "RB".toList initState.relationship_types,
          self_loops := insert ("C9".toList, "RB".toList) initState.self_loops } :=
  claim_C5.1 initState ["C9".toList, [], [], "RB".toList, "C9".toList]
    (by decide) (by decide)

/-- **C6**: the duplicate counter's key set equals the union of the hierarchy
and dominance canonical edge sets, and the count stored at each canonical edge
is the number of records (direct or inverse-coded) that asserted it, while set
membership is not multiplied: feeding both `("C1","CHD","C2")` and
`("C2","PAR","C1")` yields counter entry `(C2,C1)` with count `2` while the
hierarchy edge set contains `(C2,C1)` exactly once. -/
theorem claim_C6 :
    (∀ (lines : List (List Char)) (e : Edge),
        (parse_mrrel lines).duplicate_edges e
          = lines.countP (fun l => decide (canonEdge l = some e)) ∧
        ((parse_mrrel lines).duplicate_edges e ≠ 0 ↔
          e ∈ (parse_mrrel lines).parent_child_edges ∪
              (parse_mrrel lines).broader_than_edges)) ∧
    ((parse_mrrel ["C1|x|y|CHD|C2".toList, "C2|x|y|PAR|C1".toList]).duplicate_edges
        ("C2".toList, "C1".toList) = 2 ∧
     (parse_mrrel ["C1|x|y|CHD|C2".toList, "C2|x|y|PAR|C1".toList]).parent_child_edges
        = {("C2".toList, "C1".toList)}) := by
  refine ⟨fun lines e => ⟨?_, ?_⟩, by decide, by decide⟩
  · have h := parse_dupes_countP lines initState e
    simpa [parse_mrrel, initState] using h
  · rw [Finset.mem_union]
    exact parse_keys lines initState (fun e' => by simp [initState]) e

/-- **C8**: for every input containing duplicate hierarchy assertions or
hierarchy self-loops, the statistic `Total Parent-Child Relationships` equals
the cardinality of the canonical hierarchy edge set produced by `parse_mrrel`
and is strictly smaller than the number of raw hierarchy relation records
read. -/
theorem claim_C8 (lines : List (List Char))
    (hdup : (∃ l ∈ lines, isHierRecord l ∧ isSelfLoopRecord l) ∨
            ¬ (lines.filterMap canonHier).Nodup) :
    totalParentChildStat lines = (parse_mrrel lines).parent_child_edges.card ∧
    (parse_mrrel lines).parent_child_edges = (lines.filterMap canonHier).toFinset ∧
    totalParentChildStat lines < rawHierCount lines := by
  have hpc : (parse_mrrel lines).parent_child_edges
      = (lines.filterMap canonHier).toFinset := by
    simpa [parse_mrrel, initState] using parse_pc_eq lines initState
  refine ⟨rfl, hpc, ?_⟩
  have hptq : ∀ l ∈ lines, (fun l => (canonHier l).isSome) l = true → isHierRecord l = true := by
    intro l _ hl
    rcases Option.isSome_iff_exists.mp hl with ⟨e, he⟩
    exact canonHier_isHier l e he
  have hcount : (lines.filterMap canonHier).length
      = lines.countP (fun l => (canonHier l).isSome) :=
    length_filterMap_eq_countP canonHier lines
  rw [totalParentChildStat, hpc, rawHierCount]
  rcases hdup with ⟨l, hl, hhier, hself⟩ | hnd
  · have h1 : (lines.filterMap canonHier).toFinset.card
        ≤ (lines.filterMap canonHier).length := List.toFinset_card_le _
    have h2 : lines.countP (fun l => (canonHier l).isSome) < lines.countP isHierRecord := by
      refine countP_lt_of_witness _ _ lines hptq l hl hhier ?_
      rw [selfLoop_canonHier_none l hself]
      rfl
    omega
  · have h1 : (lines.filterMap canonHier).toFinset.card
        < (lines.filterMap canonHier).length := toFinset_card_lt_of_not_nodup hnd
    have h2 : lines.countP (fun l => (canonHier l).isSome) ≤ lines.countP isHierRecord :=
      List.countP_mono_left hptq
    omega

/-- Witness for **C8** at an input with a hierarchy self-loop record. -/
theorem claim_C8_witness :
    ((∃ l ∈ ["C100|a|b|PAR|C100".toList], isHierRecord l ∧ isSelfLoopRecord l) ∨
      ¬ (["C100|a|b|PAR|C100".toList].filterMap canonHier).Nodup) ∧
    totalParentChildStat ["C100|a|b|PAR|C100".toList]
      < rawHierCount ["C100|a|b|PAR|C100".toList] :=
  ⟨Or.inl ⟨_, List.mem_cons_self _ _, by decide, by decide⟩,
   (claim_C8 ["C100|a|b|PAR|C100".toList]
     (Or.inl ⟨_, List.mem_cons_self _ _, by decide, by decide⟩)).2.2⟩

/-- **C9**: the hierarchy and dominance edge sets are not disjoint as sets of
ordered pairs, and the duplicate counter does not distinguish families: with
`(A,"PAR",B)` and `(A,"RB",B)` in the input, `(A,B)` lies in both edge sets
and the counter holds the single key `(A,B)` with count `2`. -/
theorem claim_C9 :
    (parse_mrrel ["A|x|y|PAR|B".toList, "A|x|y|RB|B".toList]).parent_child_edges
        = {("A".toList, "B".toList)} ∧
    (parse_mrrel ["A|x|y|PAR|B".toList, "A|x|y|RB|B".toList]).broader_than_edges
        = {("A".toList, "B".toList)} ∧
    (parse_mrrel ["A|x|y|PAR|B".toList, "A|x|y|RB|B".toList]).parent_child_edges ∩
      (parse_mrrel ["A|x|y|PAR|B".toList, "A|x|y|RB|B".toList]).broader_than_edges ≠ ∅ ∧
    (parse_mrrel ["A|x|y|PAR|B".toList, "A|x|y|RB|B".toList]).duplicate_edges
        ("A".toList, "B".toList) = 2 ∧
    ∀ e, (parse_mrrel ["A|x|y|PAR|B".toList, "A|x|y|RB|B".toList]).duplicate_edges e ≠ 0 →
      e = ("A".toList, "B".toList) := by
  refine ⟨by decide, by decide, by decide, by decide, fun e he => ?_⟩
  have hk := parse_keys ["A|x|y|PAR|B".toList, "A|x|y|RB|B".toList] initState
    (fun e' => by simp [initState]) e
  unfold parse_mrrel at he
  rcases hk.mp he with h' | h'
  · have hpc : (List.foldl processLine initState
        ["A|x|y|PAR|B".toList, "A|x|y|RB|B".toList]).parent_child_edges
        = {("A".toList, "B".toList)} := by decide
    rw [hpc] at h'
    simpa using h'
  · have hbt : (List.foldl processLine initState
        ["A|x|y|PAR|B".toList, "A|x|y|RB|B".toList]).broader_than_edges
        = {("A".toList, "B".toList)} := by decide
    rw [hbt] at h'
    simpa using h'

/-- **C7**: `parse_mrrel` raises an error if and only if the configured input
resource does not exist, and this check is independent of the stream content;
an input line that yields fewer than five fields is dropped silently, without
error and without any state change. -/
theorem claim_C7 :
    (∀ (fileExists : Bool) (lines : List (List Char)),
        ((∃ msg, parse_mrrel_checked fileExists lines = Except.error msg) ↔
          fileExists = false)) ∧
    (∀ (fileExists : Bool) (lines : List (List Char)), fileExists = true →
        parse_mrrel_checked fileExists lines = Except.ok (parse_mrrel lines)) ∧
    (∀ (lines lines' : List (List Char)),
        parse_mrrel_checked false lines = parse_mrrel_checked false lines') ∧
    (∀ (st : ParseState) (line : List Char),
        (splitBar (strip line)).length < 5 → processLine st line = st) := by
    refine ⟨fun fe lines => ?_, fun fe lines hfe => by rw [hfe]; rfl,
      fun lines lines' => rfl, fun st line h5 => ?_⟩
    · cases fe
      · exact ⟨fun _ => rfl, fun _ => ⟨_, rfl⟩⟩
      · refine ⟨fun ⟨msg, hmsg⟩ => ?_, fun h => by cases h⟩
        exact absurd hmsg (by simp [parse_mrrel_checked])
    · unfold processLine processParts
      rw [if_pos h5]

/-- Witness for **C7**: the checked parser succeeds on an existing resource
and a malformed line leaves the state untouched. -/
theorem claim_C7_witness :
    parse_mrrel_checked true ["ab".toList] = Except.ok (parse_mrrel ["ab".toList]) ∧
    processLine initState "ab".toList = initState :=
  ⟨claim_C7.2.1 true ["ab".toList] rfl,
   claim_C7.2.2.2 initState "ab".toList (by decide)⟩

/-! ## Whitespace-stripping lemmas -/

theorem dropWhile_ws_append (a x : List Char) (ha : ∀ c ∈ a, c.isWhitespace = true) :
    (a ++ x).dropWhile Char.isWhitespace = x.dropWhile Char.isWhitespace := by
  induction a with
  | nil => rfl
  | cons c t ih =>
    rw [List.cons_append, List.dropWhile_cons_of_pos (ha c (List.mem_cons_self c t))]
    exact ih (fun d hd => ha d (List.mem_cons_of_mem _ hd))

theorem dropWhile_ws_eq_nil (x : List Char) (hx : ∀ c ∈ x, c.isWhitespace = true) :
    x.dropWhile Char.isWhitespace = [] := by
  have := dropWhile_ws_append x [] hx
  simpa using this

theorem trimLeft_append_ws (a x : List Char) (ha : ∀ c ∈ a, c.isWhitespace = true) :
    trimLeft (a ++ x) = trimLeft x :=
  dropWhile_ws_append a x ha

theorem trimRight_append_ws (x b : List Char) (hb : ∀ c ∈ b, c.isWhitespace = true) :
    trimRight (x ++ b) = trimRight x := by
  unfold trimRight
  rw [List.reverse_append,
    dropWhile_ws_append b.reverse x.reverse (fun c hc => hb c (List.mem_reverse.mp hc))]

theorem strip_append_left_ws (a x : List Char) (ha : ∀ c ∈ a, c.isWhitespace = true) :
    strip (a ++ x) = strip x := by
  unfold strip
  rw [trimLeft_append_ws a x ha]

theorem strip_append_right_ws (x b : List Char) (hb : ∀ c ∈ b, c.isWhitespace = true) :
    strip (x ++ b) = strip x := by
  unfold strip trimLeft
  rw [List.dropWhile_append]
  by_cases h : (x.dropWhile Char.isWhitespace).isEmpty
  · rw [if_pos h, dropWhile_ws_eq_nil b hb, List.isEmpty_iff.mp h]
  · rw [if_neg h]
    exact trimRight_append_ws _ b hb

/-- Surrounding whitespace never affects `strip`. -/
theorem strip_pad (a x b : List Char) (ha : ∀ c ∈ a, c.isWhitespace = true)
    (hb : ∀ c ∈ b, c.isWhitespace = true) : strip (a ++ x ++ b) = strip x := by
  rw [List.append_assoc, strip_append_left_ws a (x ++ b) ha,
    strip_append_right_ws x b hb]

/-- `processParts` depends only on the field count and the stripped source,
relation-code and target fields. -/
theorem processParts_congr (st : ParseState) (parts1 parts2 : List (List Char))
    (hlen : parts1.length = parts2.length)
    (h0 : strip (parts1.getD 0 []) = strip (parts2.getD 0 []))
    (h3 : strip (parts1.getD 3 []) = strip (parts2.getD 3 []))
    (h4 : strip (parts1.getD 4 []) = strip (parts2.getD 4 [])) :
    processParts st parts1 = processParts st parts2 := by
  unfold processParts
  dsimp only
  rw [hlen, h0, h3, h4]

/-- **C10**: `parse_mrrel` strips surrounding whitespace from each line and
from the source, relation-code and target fields before any classification,
so records differing only by surrounding whitespace produce the same canonical
edge, self-loop entry and relation-code entry; and a record whose stripped
source equals its stripped target is treated as a self-loop. -/
theorem claim_C10 :
    (∀ (st : ParseState) (a line b : List Char),
        (∀ c ∈ a, c.isWhitespace = true) → (∀ c ∈ b, c.isWhitespace = true) →
        processLine st (a ++ line ++ b) = processLine st line) ∧
    (∀ (st : ParseState) (parts1 parts2 : List (List Char)),
        parts1.length = parts2.length →
        (∀ i ∈ ([0, 3, 4] : List Nat), ∃ a b,
            (∀ c ∈ a, c.isWhitespace = true) ∧ (∀ c ∈ b, c.isWhitespace = true) ∧
            parts2.getD i [] = a ++ parts1.getD i [] ++ b) →
        processParts st parts1 = processParts st parts2) ∧
    (∀ (st : ParseState) (parts : List (List Char)), ¬ parts.length < 5 →
        strip (parts.getD 0 []) = strip (parts.getD 4 []) →
        (processParts st parts).self_loops
          = insert (strip (parts.getD 0 []), strip (parts.getD 3 [])) st.self_loops ∧
        (processParts st parts).parent_child_edges = st.parent_child_edges ∧
        (processParts st parts).broader_than_edges = st.broader_than_edges) := by
  refine ⟨fun st a line b ha hb => ?_, fun st parts1 parts2 hlen hpad => ?_,
    fun st parts h5 hst => ?_⟩
  · unfold processLine
    rw [strip_pad a line b ha hb]
  · obtain ⟨a0, b0, ha0, hb0, he0⟩ := hpad 0 (by simp)
    obtain ⟨a3, b3, ha3, hb3, he3⟩ := hpad 3 (by simp)
    obtain ⟨a4, b4, ha4, hb4, he4⟩ := hpad 4 (by simp)
    refine processParts_congr st parts1 parts2 hlen ?_ ?_ ?_
    · rw [he0, strip_pad a0 _ b0 ha0 hb0]
    · rw [he3, strip_pad a3 _ b3 ha3 hb3]
    · rw [he4, strip_pad a4 _ b4 ha4 hb4]
  · unfold processParts
    dsimp only
    rw [if_neg h5, if_pos hst]
    exact ⟨rfl, rfl, rfl⟩

/-- Witness for **C10**: padding a concrete record line with surrounding
whitespace leaves the parse step unchanged. -/
theorem claim_C10_witness :
    processLine initState (" ".toList ++ "A|x|y|PAR|B".toList ++ "\n".toList)
      = processLine initState "A|x|y|PAR|B".toList :=
  claim_C10.1 initState " ".toList "A|x|y|PAR|B".toList "\n".toList
    (by decide) (by decide)

/-! ## The Cycle Detector (`detect_cycles`)

The Python function does a recursive depth-first search with mutable
`visited` / `rec_stack` sets, a mutable `path` list, and cycle deduplication
by sorted vertex tuple.  We model the graph by its edge list (the adjacency
mapping `pc_graph` is a `defaultdict(list)` built by appending the target of
every edge to its source's list), the recursion by a fuel parameter large
enough never to run out, and `tuple(sorted(cycle))` by the multiset of the
cycle's elements (two lists have equal sorted tuples iff they are equal as
multisets). -/

section Cycles

variable {α : Type} [DecidableEq α]

/-- `pc_graph[v]`: the successors of `v` in order of edge insertion. -/
def adjList (edges : List (α × α)) (v : α) : List α :=
  (edges.filter (fun e => decide (e.1 = v))).map Prod.snd

/-- Worker for first-occurrence deduplication: `seen` holds the elements
already emitted. -/
def dedupFGo (seen : List α) : List α → List α
  | [] => []
  | a :: l => if a ∈ seen then dedupFGo seen l else a :: dedupFGo (a :: seen) l

/-- First-occurrence deduplication (Python `dict` key order). -/
def dedupF (l : List α) : List α := dedupFGo [] l

/-- All nodes occurring in the edge list. -/
def supportF (edges : List (α × α)) : Finset α :=
  (edges.map Prod.fst ++ edges.map Prod.snd).toFinset

/-- The mutable state of the Python `dfs` closure: `visited`, `rec_stack`,
`unique_cycles` and `all_cycles`. -/
structure DfsState (α : Type) [DecidableEq α] where
  visited : Finset α
  rec_stack : Finset α
  unique_cycles : Finset (Multiset α)
  all_cycles : List (List α)

/-- The initial DFS state. -/
def initDfs : DfsState α := ⟨∅, ∅, ∅, []⟩

/-- The recursive `dfs(node, path)` of `detect_cycles`.  On a node already on
the recursion stack the cycle `path[path.index(node):]` is recorded unless its
vertex multiset was already seen; a visited node terminates the branch;
otherwise the node is marked, all neighbors are explored with the node
appended to the path, and the node is removed from the stack afterwards.
The fuel argument only bounds the recursion depth; it is chosen so that it
never runs out. -/
def dfs (adj : α → List α) : Nat → α → List α → DfsState α → DfsState α
  | 0, _, _, st => st
  | fuel + 1, node, path, st =>
    if node ∈ st.rec_stack then
      let cycle := path.dropWhile (fun z => decide (z ≠ node))
      let normalized : Multiset α := ↑cycle
      if normalized ∈ st.unique_cycles then st
      else { st with unique_cycles := insert normalized st.unique_cycles,
                     all_cycles := st.all_cycles ++ [cycle] }
    else if node ∈ st.visited then st
    else
      let st1 := { st with visited := insert node st.visited,
                           rec_stack := insert node st.rec_stack }
      let st2 := (adj node).foldl (fun s w => dfs adj fuel w (path ++ [node]) s) st1
      { st2 with rec_stack := st2.rec_stack.erase node }

/-- The top-level loop of `detect_cycles` over the given root candidates:
`for node in list(graph): if node not in visited: dfs(node, [])`. -/
def detectCyclesAux (edges : List (α × α)) (roots : List α) : DfsState α :=
  roots.foldl
    (fun st v => if v ∈ st.visited then st
                 else dfs (adjList edges) ((supportF edges).card + 1) v [] st)
    initDfs

/-- `detect_cycles` run over an explicit list of root candidates. -/
def detect_cycles_from (edges : List (α × α)) (roots : List α) : List (List α) :=
  (detectCyclesAux edges roots).all_cycles

/-- `detect_cycles` on the graph built from the hierarchy edge list: the
root candidates are the keys of `pc_graph`, i.e. the edge sources in first
occurrence order. -/
def detect_cycles (edges : List (α × α)) : List (List α) :=
  detect_cycles_from edges (dedupF (edges.map Prod.fst))

end Cycles

/-- A permutation of a two-element list of distinct elements is one of the
two arrangements. -/
theorem perm_two {α : Type} [DecidableEq α] {a b : α} (hab : a ≠ b) {l : List α}
    (h : l.Perm [a, b]) : l = [a, b] ∨ l = [b, a] := by
  rcases l with _ | ⟨x, _ | ⟨y, _ | ⟨z, t⟩⟩⟩
  · exact absurd h.length_eq (by simp)
  · exact absurd h.length_eq (by simp)
  · rw [List.cons_perm_iff_perm_erase] at h
    rcases h with ⟨hx, hy⟩
    rcases (by simpa using hx : x = a ∨ x = b) with rfl | rfl
    · rw [show [x, b].erase x = [b] by simp] at hy
      rw [List.perm_singleton.mp hy]
      exact Or.inl rfl
    · rw [show [a, x].erase x = [a] by simp [List.erase_cons, hab]] at hy
      rw [List.perm_singleton.mp hy]
      exact Or.inr rfl
  · exact absurd h.length_eq (by simp)

/-- A permutation of a three-element list of distinct elements is one of the
six arrangements. -/
theorem perm_three {α : Type} [DecidableEq α] {a b c : α} (hab : a ≠ b)
    (hac : a ≠ c) (hbc : b ≠ c) {l : List α} (h : l.Perm [a, b, c]) :
    l = [a, b, c] ∨ l = [a, c, b] ∨ l = [b, a, c] ∨ l = [b, c, a] ∨
    l = [c, a, b] ∨ l = [c, b, a] := by
  rcases l with _ | ⟨x, l'⟩
  · exact absurd h.length_eq (by simp)
  · rw [List.cons_perm_iff_perm_erase] at h
    rcases h with ⟨hx, hl⟩
    rcases (by simpa using hx : x = a ∨ x = b ∨ x = c) with rfl | rfl | rfl
    · rw [show [x, b, c].erase x = [b, c] by simp] at hl
      rcases perm_two hbc hl with rfl | rfl
      · exact Or.inl rfl
      · exact Or.inr (Or.inl rfl)
    · rw [show [a, x, c].erase x = [a, c] by simp [List.erase_cons, hab]] at hl
      rcases perm_two hac hl with rfl | rfl
      · exact Or.inr (Or.inr (Or.inl rfl))
      · exact Or.inr (Or.inr (Or.inr (Or.inl rfl)))
    · rw [show [a, b, x].erase x = [a, b] by
          simp [List.erase_cons, hac, hbc]] at hl
      rcases perm_two hab hl with rfl | rfl
      · exact Or.inr (Or.inr (Or.inr (Or.inr (Or.inl rfl))))
      · exact Or.inr (Or.inr (Or.inr (Or.inr (Or.inr rfl))))

/-- **C4**: the three-record loop `("C1","CHD","C2")`, `("C2","CHD","C3")`,
`("C3","CHD","C1")` canonicalizes to the hierarchy edges
`{(C2,C1),(C3,C2),(C1,C3)}`, on which `detect_cycles` reports exactly one
cycle with vertex set `{C1,C2,C3}` — whatever order the edge set is iterated
in — and a cycle-free tree such as `{(B,A),(C,A),(D,B)}` yields zero cycles
in every iteration order. -/
theorem claim_C4 :
    (parse_mrrel ["C1|x|y|CHD|C2".toList, "C2|x|y|CHD|C3".toList,
        "C3|x|y|CHD|C1".toList]).parent_child_edges
      = {("C2".toList, "C1".toList), ("C3".toList, "C2".toList),
         ("C1".toList, "C3".toList)} ∧
    (∀ es : List (List Char × List Char),
      es.Perm [("C2".toList, "C1".toList), ("C3".toList, "C2".toList),
        ("C1".toList, "C3".toList)] →
      (detect_cycles es).length = 1 ∧
      ∀ c ∈ detect_cycles es,
        (↑c : Multiset (List Char)) = {"C1".toList, "C2".toList, "C3".toList}) ∧
    (∀ es : List (List Char × List Char),
      es.Perm [("B".toList, "A".toList), ("C".toList, "A".toList),
        ("D".toList, "B".toList)] →
      detect_cycles es = []) := by
  refine ⟨by decide, fun es hp => ?_, fun es hp => ?_⟩
  · rcases perm_three (by decide) (by decide) (by decide) hp with
      rfl | rfl | rfl | rfl | rfl | rfl <;> exact ⟨by decide, by decide⟩
  · rcases perm_three (by decide) (by decide) (by decide) hp with
      rfl | rfl | rfl | rfl | rfl | rfl <;> decide

/-- Witness for **C4** at the identity iteration order. -/
theorem claim_C4_witness :
    (detect_cycles [("C2".toList, "C1".toList), ("C3".toList, "C2".toList),
      ("C1".toList, "C3".toList)]).length = 1 ∧
    detect_cycles [("B".toList, "A".toList), ("C".toList, "A".toList),
      ("D".toList, "B".toList)] = [] :=
  ⟨(claim_C4.2.1 _ (List.Perm.refl _)).1, claim_C4.2.2 _ (List.Perm.refl _)⟩

section CycleCorrectness

variable {α : Type} [DecidableEq α]

/-- The edge relation of an edge-list graph. -/
def EdgeRel (edges : List (α × α)) (a b : α) : Prop := (a, b) ∈ edges

/-- Reachability (zero or more directed hops) in an edge-list graph. -/
def Reaches (edges : List (α × α)) : α → α → Prop :=
  Relation.ReflTransGen (EdgeRel edges)

/-- The strongly connected cluster of `r`: all nodes mutually reachable
with `r`. -/
def sccOf (edges : List (α × α)) (r : α) : Set α :=
  {v | Reaches edges r v ∧ Reaches edges v r}

theorem mem_adjList (edges : List (α × α)) (v w : α) :
    w ∈ adjList edges v ↔ EdgeRel edges v w := by
  simp only [adjList, List.mem_map, List.mem_filter, decide_eq_true_eq, EdgeRel]
  constructor
  · rintro ⟨⟨a, b⟩, ⟨hmem, rfl⟩, rfl⟩
    exact hmem
  · intro h
    exact ⟨(v, w), ⟨h, rfl⟩, rfl⟩

theorem source_mem_supportF (edges : List (α × α)) {a b : α}
    (h : (a, b) ∈ edges) : a ∈ supportF edges := by
  simp only [supportF, List.toFinset_append, Finset.mem_union, List.mem_toFinset,
    List.mem_map]
  exact Or.inl ⟨(a, b), h, rfl⟩

theorem target_mem_supportF (edges : List (α × α)) {a b : α}
    (h : (a, b) ∈ edges) : b ∈ supportF edges := by
  simp only [supportF, List.toFinset_append, Finset.mem_union, List.mem_toFinset,
    List.mem_map]
  exact Or.inr ⟨(a, b), h, rfl⟩

/-- The strongly connected cluster is closed under two-sided reachability
through any of its members. -/
theorem sccOf_closed (edges : List (α × α)) (r : α) {w : α} (hw : w ∈ sccOf edges r)
    {z : α} (h1 : Reaches edges w z) (h2 : Reaches edges z w) : z ∈ sccOf edges r :=
  ⟨hw.1.trans h1, h2.trans hw.2⟩

/-- In a strongly connected cluster containing an edge, every member has a
successor inside the cluster. -/
theorem sccOf_succ (edges : List (α × α)) (r : α)
    (hcyc : ∃ u ∈ sccOf edges r, ∃ w ∈ sccOf edges r, EdgeRel edges u w) :
    ∀ v ∈ sccOf edges r, ∃ w, EdgeRel edges v w ∧ w ∈ sccOf edges r := by
  rintro v hv
  obtain ⟨u, hu, w0, hw0, euw⟩ := hcyc
  have hvu : Reaches edges v u := hv.2.trans hu.1
  rcases (Relation.ReflTransGen.cases_head hvu) with rfl | ⟨z, hvz, hzu⟩
  · exact ⟨w0, euw, hw0⟩
  · refine ⟨z, hvz, ?_⟩
    exact ⟨hv.1.trans (Relation.ReflTransGen.single hvz),
      (hzu.trans hu.2)⟩

/-- Every member of a strongly connected cluster with an internal edge occurs
as an edge source, hence lies in the support. -/
theorem sccOf_mem_support (edges : List (α × α)) (r : α)
    (hcyc : ∃ u ∈ sccOf edges r, ∃ w ∈ sccOf edges r, EdgeRel edges u w) :
    ∀ v ∈ sccOf edges r, v ∈ supportF edges := by
  intro v hv
  obtain ⟨w, hw, _⟩ := sccOf_succ edges r hcyc v hv
  exact source_mem_supportF edges hw

end CycleCorrectness

section DfsLemmas

variable {α : Type} [DecidableEq α]

/-- `dfs` restores the recursion stack it was given. -/
theorem dfs_rec_stack_eq (adj : α → List α) :
    ∀ (fuel : Nat) (node : α) (path : List α) (st : DfsState α),
      (dfs adj fuel node path st).rec_stack = st.rec_stack := by
  intro fuel
  induction fuel with
  | zero => intro node path st; rfl
  | succ n ih =>
    intro node path st
    rw [dfs]
    dsimp only
    split_ifs with h1 h2 h3
    · rfl
    · rfl
    · rfl
    · have hfold : ∀ (l : List α) (s : DfsState α),
          (l.foldl (fun s w => dfs adj n w (path ++ [node]) s) s).rec_stack
            = s.rec_stack := by
        intro l
        induction l with
        | nil => intro s; rfl
        | cons w ws ihl => intro s; rw [List.foldl_cons, ihl, ih]
      rw [hfold]
      exact Finset.erase_insert h1

/-- `dfs` only grows the visited set. -/
theorem dfs_visited_mono (adj : α → List α) :
    ∀ (fuel : Nat) (node : α) (path : List α) (st : DfsState α),
      st.visited ⊆ (dfs adj fuel node path st).visited := by
  intro fuel
  induction fuel with
  | zero => intro node path st; exact subset_rfl
  | succ n ih =>
    intro node path st
    rw [dfs]
    dsimp only
    split_ifs with h1 h2 h3
    · exact subset_rfl
    · exact subset_rfl
    · exact subset_rfl
    · have hfold : ∀ (l : List α) (s : DfsState α),
          s.visited ⊆ (l.foldl (fun s w => dfs adj n w (path ++ [node]) s) s).visited := by
        intro l
        induction l with
        | nil => intro s; exact subset_rfl
        | cons w ws ihl =>
          intro s
          rw [List.foldl_cons]
          exact (ih w (path ++ [node]) s).trans (ihl _)
      exact (Finset.subset_insert node st.visited).trans
        (hfold (adj node)
          ⟨insert node st.visited, insert node st.rec_stack,
            st.unique_cycles, st.all_cycles⟩)

/-- `dfs` only appends to the recorded cycle list. -/
theorem dfs_cycles_mono (adj : α → List α) :
    ∀ (fuel : Nat) (node : α) (path : List α) (st : DfsState α) (c : List α),
      c ∈ st.all_cycles → c ∈ (dfs adj fuel node path st).all_cycles := by
  intro fuel
  induction fuel with
  | zero => intro node path st c hc; exact hc
  | succ n ih =>
    intro node path st c hc
    rw [dfs]
    dsimp only
    split_ifs with h1 h2 h3
    · exact hc
    · exact List.mem_append_left _ hc
    · exact hc
    · have hfold : ∀ (l : List α) (s : DfsState α), c ∈ s.all_cycles →
          c ∈ (l.foldl (fun s w => dfs adj n w (path ++ [node]) s) s).all_cycles := by
        intro l
        induction l with
        | nil => intro s hs; exact hs
        | cons w ws ihl =>
          intro s hs
          rw [List.foldl_cons]
          exact ihl _ (ih w (path ++ [node]) s c hs)
      exact hfold (adj node)
        ⟨insert node st.visited, insert node st.rec_stack,
          st.unique_cycles, st.all_cycles⟩ hc

/-- Every multiset in `unique_cycles` is realized by a recorded cycle. -/
def UniqueInv (st : DfsState α) : Prop :=
  ∀ m ∈ st.unique_cycles, ∃ c ∈ st.all_cycles, (↑c : Multiset α) = m

/-- `dfs` preserves the correspondence between `unique_cycles` and
`all_cycles`. -/
theorem dfs_uniqueInv (adj : α → List α) :
    ∀ (fuel : Nat) (node : α) (path : List α) (st : DfsState α),
      UniqueInv st → UniqueInv (dfs adj fuel node path st) := by
  intro fuel
  induction fuel with
  | zero => intro node path st h; exact h
  | succ n ih =>
    intro node path st h
    rw [dfs]
    dsimp only
    split_ifs with h1 h2 h3
    · exact h
    · intro m hm
      rcases Finset.mem_insert.mp hm with rfl | hm'
      · exact ⟨_, List.mem_append_right _ (List.mem_cons_self _ _), rfl⟩
      · obtain ⟨c, hc, hcm⟩ := h m hm'
        exact ⟨c, List.mem_append_left _ hc, hcm⟩
    · exact h
    · have hfold : ∀ (l : List α) (s : DfsState α), UniqueInv s →
          UniqueInv (l.foldl (fun s w => dfs adj n w (path ++ [node]) s) s) := by
        intro l
        induction l with
        | nil => intro s hs; exact hs
        | cons w ws ihl =>
          intro s hs
          rw [List.foldl_cons]
          exact ihl _ (ih w (path ++ [node]) s hs)
      exact hfold (adj node)
        ⟨insert node st.visited, insert node st.rec_stack,
          st.unique_cycles, st.all_cycles⟩ h

/-- With at least one unit of fuel, `dfs` leaves its node visited (assuming
the stack is contained in the visited set). -/
theorem dfs_visits (adj : α → List α) (fuel : Nat) (node : α) (path : List α)
    (st : DfsState α) (hfuel : 1 ≤ fuel) (hrs : st.rec_stack ⊆ st.visited) :
    node ∈ (dfs adj fuel node path st).visited := by
  obtain ⟨n, rfl⟩ : ∃ n, fuel = n + 1 := ⟨fuel - 1, by omega⟩
  rw [dfs]
  dsimp only
  split_ifs with h1 h2 h3
  · exact hrs h1
  · exact hrs h1
  · exact h3
  · have hfold : ∀ (l : List α) (s : DfsState α),
        s.visited ⊆ (l.foldl (fun s w => dfs adj n w (path ++ [node]) s) s).visited := by
      intro l
      induction l with
      | nil => intro s; exact subset_rfl
      | cons w ws ihl =>
        intro s
        rw [List.foldl_cons]
        exact (dfs_visited_mono adj n w (path ++ [node]) s).trans (ihl _)
    exact hfold (adj node)
      ⟨insert node st.visited, insert node st.rec_stack,
        st.unique_cycles, st.all_cycles⟩
      (Finset.mem_insert_self node st.visited)

end DfsLemmas

section ChainHelpers

variable {α : Type} [DecidableEq α]

/-- `path[path.index(w):]` starts with the first occurrence of `w`. -/
theorem dropWhile_ne_eq_cons {w : α} {l : List α} (hw : w ∈ l) :
    ∃ t, l.dropWhile (fun z => decide (z ≠ w)) = w :: t := by
  induction l with
  | nil => cases hw
  | cons a l ih =>
    by_cases ha : a = w
    · subst ha
      exact ⟨l, by simp [List.dropWhile_cons]⟩
    · rw [List.dropWhile_cons_of_pos (by simpa using ha)]
      refine ih ?_
      rcases List.mem_cons.mp hw with rfl | h
      · exact absurd rfl ha
      · exact h

/-- Along a chain, the head reaches every element. -/
theorem chain_head_reaches {R : α → α → Prop} :
    ∀ (x : α) (t : List α), List.Chain' R (x :: t) → ∀ z ∈ x :: t,
      Relation.ReflTransGen R x z := by
  intro x t
  induction t generalizing x with
  | nil =>
    intro _ z hz
    rcases List.mem_singleton.mp hz with rfl
    exact Relation.ReflTransGen.refl
  | cons y t ih =>
    intro h z hz
    rcases List.mem_cons.mp hz with rfl | hz'
    · exact Relation.ReflTransGen.refl
    · exact Relation.ReflTransGen.head (List.chain'_cons.mp h).1
        (ih y (List.chain'_cons.mp h).2 z hz')

/-- Along a chain, every element reaches the last one. -/
theorem chain_reaches_last {R : α → α → Prop} :
    ∀ (l : List α) (hl : l ≠ []), List.Chain' R l → ∀ z ∈ l,
      Relation.ReflTransGen R z (l.getLast hl) := by
  intro l
  induction l with
  | nil => intro h; cases h rfl
  | cons x t ih =>
    intro hl hch z hz
    cases t with
    | nil =>
      rcases List.mem_singleton.mp hz with rfl
      exact Relation.ReflTransGen.refl
    | cons y t' =>
      have hgl : (x :: y :: t').getLast hl = (y :: t').getLast (by simp) :=
        List.getLast_cons (by simp)
      rcases List.mem_cons.mp hz with rfl | hz'
      · rw [hgl]
        exact Relation.ReflTransGen.head (List.chain'_cons.mp hch).1
          (ih (by simp) (List.chain'_cons.mp hch).2 y (List.mem_cons_self y t'))
      · rw [hgl]
        exact ih (by simp) (List.chain'_cons.mp hch).2 z hz'

/-- Visiting an unvisited support node strictly shrinks the unvisited part of
the support. -/
theorem card_filter_insert_lt (supp vis : Finset α) (u : α)
    (hu : u ∈ supp) (hnv : u ∉ vis) :
    (supp.filter (fun x => x ∉ insert u vis)).card
      < (supp.filter (fun x => x ∉ vis)).card := by
  have hss : supp.filter (fun x => x ∉ insert u vis)
      = (supp.filter (fun x => x ∉ vis)).erase u := by
    ext x
    simp only [Finset.mem_filter, Finset.mem_erase, Finset.mem_insert, not_or]
    tauto
  have hmem : u ∈ supp.filter (fun x => x ∉ vis) := by
    simp [Finset.mem_filter, hu, hnv]
  rw [hss, Finset.card_erase_of_mem hmem]
  have : 0 < (supp.filter (fun x => x ∉ vis)).card :=
    Finset.card_pos.mpr ⟨u, hmem⟩
  omega

/-- Growing the visited set shrinks the unvisited part of the support. -/
theorem card_filter_mono_vis (supp vis vis' : Finset α) (h : vis ⊆ vis') :
    (supp.filter (fun x => x ∉ vis')).card ≤ (supp.filter (fun x => x ∉ vis)).card := by
  refine Finset.card_le_card (fun x hx => ?_)
  simp only [Finset.mem_filter] at hx ⊢
  exact ⟨hx.1, fun hv => hx.2 (h hv)⟩

/-- Folding `dfs` over a worklist only appends to the recorded cycle list. -/
theorem foldl_dfs_cycles_mono (adj : α → List α) (fuel : Nat) (path : List α)
    (l : List α) (s : DfsState α) (c : List α) (hc : c ∈ s.all_cycles) :
    c ∈ (l.foldl (fun acc w => dfs adj fuel w path acc) s).all_cycles := by
  induction l generalizing s with
  | nil => exact hc
  | cons w ws ih =>
    rw [List.foldl_cons]
    exact ih _ (dfs_cycles_mono adj fuel w path s c hc)

/-- Folding `dfs` over a worklist only grows the visited set. -/
theorem foldl_dfs_visited_mono (adj : α → List α) (fuel : Nat) (path : List α)
    (l : List α) (s : DfsState α) :
    s.visited ⊆ (l.foldl (fun acc w => dfs adj fuel w path acc) s).visited := by
  induction l generalizing s with
  | nil => exact subset_rfl
  | cons w ws ih =>
    rw [List.foldl_cons]
    exact (dfs_visited_mono adj fuel w path s).trans (ih _)

end ChainHelpers

section Dichotomy

variable {α : Type} [DecidableEq α]

/-- Core correctness of the depth-first search: run on a node with enough
fuel, under the standard stack/path invariants, and with the members of a
strongly connected cluster `S` never finished while visited (they are on the
recursion stack), the search either has recorded a cycle lying inside `S` or
has visited no new member of `S`. -/
theorem dfs_scc_dichotomy (edges : List (α × α)) (S : Set α)
    (hclosed : ∀ w ∈ S, ∀ z, Reaches edges w z → Reaches edges z w → z ∈ S)
    (hSsucc : ∀ v ∈ S, ∃ w, EdgeRel edges v w ∧ w ∈ S) :
    ∀ (fuel : Nat) (u : α) (path : List α) (st : DfsState α),
      ((supportF edges).filter (fun x => x ∉ st.visited)).card < fuel →
      u ∈ supportF edges →
      st.rec_stack = path.toFinset →
      List.Chain' (EdgeRel edges) path →
      (∀ (h : path ≠ []), EdgeRel edges (path.getLast h) u) →
      (∀ x ∈ S, x ∈ st.visited → x ∈ st.rec_stack) →
      st.rec_stack ⊆ st.visited →
      UniqueInv st →
      (∃ c ∈ (dfs (adjList edges) fuel u path st).all_cycles,
          c ≠ [] ∧ ∀ x ∈ c, x ∈ S) ∨
      (∀ x ∈ S, x ∈ (dfs (adjList edges) fuel u path st).visited → x ∈ st.visited) := by
  intro fuel
  induction fuel with
  | zero =>
    intro u path st hfuel
    exact absurd hfuel (by omega)
  | succ n ih =>
    intro u path st hfuel hu hrs hchain hcall hS hrsv huniq
    rw [dfs]
    dsimp only
    split_ifs with h1 h2 h3
    · exact Or.inr (fun x _ hx => hx)
    · exact Or.inr (fun x _ hx => hx)
    · exact Or.inr (fun x _ hx => hx)
    · -- u is fresh: mark it and explore its successors
      have hpne : (path ++ [u] : List α) ≠ [] := by simp
      have hlast : (path ++ [u]).getLast hpne = u := List.getLast_concat _
      have hchain' : List.Chain' (EdgeRel edges) (path ++ [u]) := by
        rw [List.chain'_append]
        refine ⟨hchain, List.chain'_singleton u, ?_⟩
        intro x hx y hy
        cases path with
        | nil => simp at hx
        | cons p ps =>
          have hne : (p :: ps) ≠ [] := by simp
          rw [List.getLast?_eq_getLast _ hne] at hx
          have hx' : x = (p :: ps).getLast hne := by simpa using hx.symm
          have hy' : y = u := by simpa using hy.symm
          rw [hx', hy']
          exact hcall hne
      have hrs1 : (insert u st.rec_stack) = (path ++ [u]).toFinset := by
        rw [hrs]
        ext x
        simp [or_comm]
      -- the fold over the successor list
      have hB : ∀ (pending : List α) (s : DfsState α),
          (∀ w ∈ pending, EdgeRel edges u w) →
          ((supportF edges).filter (fun x => x ∉ s.visited)).card < n →
          s.rec_stack = (path ++ [u]).toFinset →
          (∀ x ∈ S, x ∈ s.visited → x ∈ s.rec_stack) →
          s.rec_stack ⊆ s.visited →
          UniqueInv s →
          (∃ c ∈ (pending.foldl
              (fun acc w => dfs (adjList edges) n w (path ++ [u]) acc) s).all_cycles,
              c ≠ [] ∧ ∀ x ∈ c, x ∈ S) ∨
          ((∀ x ∈ S, x ∈ (pending.foldl
              (fun acc w => dfs (adjList edges) n w (path ++ [u]) acc) s).visited →
              x ∈ s.visited) ∧
            ∀ w ∈ pending, w ∉ S) := by
        intro pending
        induction pending with
        | nil =>
          intro s _ _ _ _ _ _
          exact Or.inr ⟨fun x _ hx => hx, by simp⟩
        | cons w ws ihw =>
          intro s hpend hfuel' hrs' hS' hrsv' huniq'
          rw [List.foldl_cons]
          have hew : EdgeRel edges u w := hpend w (List.mem_cons_self w ws)
          have hwsupp : w ∈ supportF edges := target_mem_supportF edges hew
          have hcall' : ∀ (h : (path ++ [u] : List α) ≠ []),
              EdgeRel edges ((path ++ [u]).getLast h) w := by
            intro h
            have hgl : (path ++ [u]).getLast h = u := List.getLast_concat _
            rw [hgl]
            exact hew
          by_cases hwS : w ∈ S
          · -- found a cluster member among the successors: a cycle appears
            have hcyc1 : ∃ c ∈ (dfs (adjList edges) n w (path ++ [u]) s).all_cycles,
                c ≠ [] ∧ ∀ x ∈ c, x ∈ S := by
              by_cases hwv : w ∈ s.visited
              · -- already visited: by the cluster invariant it is on the stack,
                -- so this call records (or has already recorded) the cycle
                have hwrs : w ∈ s.rec_stack := hS' w hwS hwv
                have hwp : w ∈ (path ++ [u] : List α) := by
                  rw [hrs'] at hwrs
                  exact List.mem_toFinset.mp hwrs
                obtain ⟨t, ht⟩ := dropWhile_ne_eq_cons hwp
                have hsuf : (w :: t) <:+ (path ++ [u]) := ht ▸ List.dropWhile_suffix _
                have hchainc : List.Chain' (EdgeRel edges) (w :: t) := by
                  obtain ⟨pre, hpre⟩ := hsuf
                  rw [← hpre] at hchain'
                  exact List.Chain'.right_of_append hchain'
                have hlastc : (w :: t).getLast (by simp) = u := by
                  rw [hsuf.getLast (by simp)]
                  exact List.getLast_concat _
                have hmemS : ∀ x ∈ (w :: t : List α), x ∈ S := by
                  intro x hx
                  have h1x : Reaches edges w x := chain_head_reaches w t hchainc x hx
                  have h2x : Reaches edges x u := by
                    have h := chain_reaches_last (w :: t) (by simp) hchainc x hx
                    rwa [hlastc] at h
                  exact hclosed w hwS x h1x
                    (h2x.trans (Relation.ReflTransGen.single hew))
                obtain ⟨m, rfl⟩ : ∃ m, n = m + 1 := ⟨n - 1, by omega⟩
                rw [dfs]
                dsimp only
                rw [if_pos hwrs, ht]
                split_ifs with hdup
                · obtain ⟨c, hc, hcm⟩ := huniq' _ hdup
                  have hperm : c.Perm (w :: t) := Multiset.coe_eq_coe.mp hcm
                  refine ⟨c, hc, ?_, ?_⟩
                  · intro hc0
                    rw [hc0] at hperm
                    exact absurd hperm.length_eq (by simp)
                  · intro x hx
                    exact hmemS x (hperm.subset hx)
                · exact ⟨w :: t,
                    List.mem_append_right _ (List.mem_cons_self _ _),
                    by simp, hmemS⟩
              · -- unvisited cluster member: recursion forces the left branch
                rcases ih w (path ++ [u]) s hfuel' hwsupp hrs' hchain' hcall'
                    hS' hrsv' huniq' with hcyc | hnoch
                · exact hcyc
                · exfalso
                  have hwvis1 : w ∈ (dfs (adjList edges) n w (path ++ [u]) s).visited :=
                    dfs_visits _ n w (path ++ [u]) s (by omega) hrsv'
                  exact hwv (hnoch w hwS hwvis1)
            obtain ⟨c, hc, hcne, hcS⟩ := hcyc1
            exact Or.inl ⟨c, foldl_dfs_cycles_mono _ n (path ++ [u]) ws _ c hc, hcne, hcS⟩
          · -- successor outside the cluster: use the dichotomy and recurse
            rcases ih w (path ++ [u]) s hfuel' hwsupp hrs' hchain' hcall'
                hS' hrsv' huniq' with hcyc | hnoch
            · obtain ⟨c, hc, hcne, hcS⟩ := hcyc
              exact Or.inl ⟨c, foldl_dfs_cycles_mono _ n (path ++ [u]) ws _ c hc, hcne, hcS⟩
            · have hrs1' : (dfs (adjList edges) n w (path ++ [u]) s).rec_stack
                  = (path ++ [u]).toFinset := by
                rw [dfs_rec_stack_eq]
                exact hrs'
              have hS1' : ∀ x ∈ S,
                  x ∈ (dfs (adjList edges) n w (path ++ [u]) s).visited →
                  x ∈ (dfs (adjList edges) n w (path ++ [u]) s).rec_stack := by
                intro x hxS hxv
                rw [dfs_rec_stack_eq]
                exact hS' x hxS (hnoch x hxS hxv)
              have hrsv1' : (dfs (adjList edges) n w (path ++ [u]) s).rec_stack
                  ⊆ (dfs (adjList edges) n w (path ++ [u]) s).visited := by
                rw [dfs_rec_stack_eq]
                exact hrsv'.trans (dfs_visited_mono _ n w (path ++ [u]) s)
              have hfuel1' : ((supportF edges).filter
                  (fun x => x ∉ (dfs (adjList edges) n w (path ++ [u]) s).visited)).card
                  < n := by
                have hm := card_filter_mono_vis (supportF edges) s.visited
                  (dfs (adjList edges) n w (path ++ [u]) s).visited
                  (dfs_visited_mono _ n w (path ++ [u]) s)
                omega
              have huniq1' : UniqueInv (dfs (adjList edges) n w (path ++ [u]) s) :=
                dfs_uniqueInv _ n w (path ++ [u]) s huniq'
              rcases ihw (dfs (adjList edges) n w (path ++ [u]) s)
                  (fun w' hw' => hpend w' (List.mem_cons_of_mem _ hw'))
                  hfuel1' hrs1' hS1' hrsv1' huniq1' with hcyc2 | ⟨hnc2, hws2⟩
              · exact Or.inl hcyc2
              · refine Or.inr ⟨fun x hxS hxv => hnoch x hxS (hnc2 x hxS hxv), ?_⟩
                intro w' hw'
                rcases List.mem_cons.mp hw' with rfl | hw''
                · exact hwS
                · exact hws2 w' hw''
      -- apply the fold dichotomy to the successor list of u
      have hpend0 : ∀ w ∈ adjList edges u, EdgeRel edges u w :=
        fun w hw => (mem_adjList edges u w).mp hw
      have hfuel1 : ((supportF edges).filter
          (fun x => x ∉ (insert u st.visited : Finset α))).card < n := by
        have hlt := card_filter_insert_lt (supportF edges) st.visited u hu h3
        omega
      have hS1 : ∀ x ∈ S, x ∈ (insert u st.visited : Finset α) →
          x ∈ (insert u st.rec_stack : Finset α) := by
        intro x hxS hxv
        rcases Finset.mem_insert.mp hxv with rfl | hxv'
        · exact Finset.mem_insert_self _ _
        · exact Finset.mem_insert_of_mem (hS x hxS hxv')
      have hrsv1 : (insert u st.rec_stack : Finset α) ⊆ insert u st.visited := by
        intro x hx
        rcases Finset.mem_insert.mp hx with rfl | hx'
        · exact Finset.mem_insert_self _ _
        · exact Finset.mem_insert_of_mem (hrsv hx')
      rcases hB (adjList edges u)
          ⟨insert u st.visited, insert u st.rec_stack, st.unique_cycles, st.all_cycles⟩
          hpend0 hfuel1 hrs1 hS1 hrsv1 huniq with hcyc | ⟨hnc, hadjS⟩
      · obtain ⟨c, hc, hcne, hcS⟩ := hcyc
        exact Or.inl ⟨c, hc, hcne, hcS⟩
      · by_cases huS : u ∈ S
        · exfalso
          obtain ⟨w, hew, hwS⟩ := hSsucc u huS
          exact (hadjS w ((mem_adjList edges u w).mpr hew)) hwS
        · refine Or.inr (fun x hxS hxv => ?_)
          rcases Finset.mem_insert.mp (hnc x hxS hxv) with rfl | hx'
          · exact absurd hxS huS
          · exact hx'

end Dichotomy

section TopLevel

variable {α : Type} [DecidableEq α]

theorem mem_dedupFGo : ∀ (l seen : List α) (x : α),
    x ∈ dedupFGo seen l ↔ x ∈ l ∧ x ∉ seen := by
  intro l
  induction l with
  | nil => intro seen x; simp [dedupFGo]
  | cons a l ih =>
    intro seen x
    rw [dedupFGo]
    by_cases ha : a ∈ seen
    · rw [if_pos ha, ih]
      simp only [List.mem_cons]
      constructor
      · rintro ⟨h1, h2⟩; exact ⟨Or.inr h1, h2⟩
      · rintro ⟨h1, h2⟩
        rcases h1 with rfl | h1
        · exact absurd ha h2
        · exact ⟨h1, h2⟩
    · rw [if_neg ha]
      simp only [List.mem_cons, ih, List.mem_cons, not_or]
      constructor
      · rintro (rfl | ⟨h1, h2, h3⟩)
        · exact ⟨Or.inl rfl, ha⟩
        · exact ⟨Or.inr h1, h3⟩
      · rintro ⟨rfl | h1, h2⟩
        · exact Or.inl rfl
        · by_cases hxa : x = a
          · exact Or.inl hxa
          · exact Or.inr ⟨h1, hxa, h2⟩

theorem mem_dedupF (l : List α) (x : α) : x ∈ dedupF l ↔ x ∈ l := by
  rw [dedupF, mem_dedupFGo]
  simp

theorem adjList_eq_nil_of_not_support (edges : List (α × α)) (v : α)
    (hv : v ∉ supportF edges) : adjList edges v = [] := by
  rw [List.eq_nil_iff_forall_not_mem]
  intro w hw
  exact hv (source_mem_supportF edges ((mem_adjList edges v w).mp hw))

theorem dfs_no_succ_visited (adj : α → List α) (n : Nat) (v : α) (path : List α)
    (st : DfsState α) (hnil : adj v = []) (hvrs : v ∉ st.rec_stack)
    (hvv : v ∉ st.visited) :
    dfs adj (n + 1) v path st
      = ⟨insert v st.visited, (insert v st.rec_stack).erase v,
         st.unique_cycles, st.all_cycles⟩ := by
  rw [dfs]
  dsimp only
  rw [if_neg hvrs, if_neg hvv, hnil]
  rfl

/-- The top-level root loop only appends to the recorded cycle list. -/
theorem foldl_roots_cycles_mono (edges : List (α × α)) (roots : List α)
    (st : DfsState α) (c : List α) (hc : c ∈ st.all_cycles) :
    c ∈ (roots.foldl
      (fun st v => if v ∈ st.visited then st
                   else dfs (adjList edges) ((supportF edges).card + 1) v [] st)
      st).all_cycles := by
  induction roots generalizing st with
  | nil => exact hc
  | cons v vs ih =>
    rw [List.foldl_cons]
    by_cases hv : v ∈ st.visited
    · rw [if_pos hv]; exact ih st hc
    · rw [if_neg hv]
      exact ih _ (dfs_cycles_mono _ _ v [] st c hc)

/-- Running the root loop over a list that contains a member of a strongly
connected cluster `S` (with an internal edge) records a cycle inside `S`,
provided no member of `S` has been visited yet. -/
theorem rootsFold_scc (edges : List (α × α)) (S : Set α)
    (hclosed : ∀ w ∈ S, ∀ z, Reaches edges w z → Reaches edges z w → z ∈ S)
    (hSsucc : ∀ v ∈ S, ∃ w, EdgeRel edges v w ∧ w ∈ S)
    (hSsub : ∀ x ∈ S, x ∈ supportF edges) :
    ∀ (roots : List α) (st : DfsState α),
      st.rec_stack = ∅ →
      (∀ x ∈ S, x ∉ st.visited) →
      UniqueInv st →
      (∃ s0 ∈ S, s0 ∈ roots) →
      ∃ c ∈ (roots.foldl
          (fun st v => if v ∈ st.visited then st
                       else dfs (adjList edges) ((supportF edges).card + 1) v [] st)
          st).all_cycles, c ≠ [] ∧ ∀ x ∈ c, x ∈ S := by
  intro roots
  induction roots with
  | nil =>
    rintro st _ _ _ ⟨s0, _, hs0⟩
    cases hs0
  | cons v vs ih =>
    rintro st hstack hnoS huniq ⟨s0, hs0S, hs0r⟩
    rw [List.foldl_cons]
    by_cases hvv : v ∈ st.visited
    · rw [if_pos hvv]
      have hs0vs : s0 ∈ vs := by
        rcases List.mem_cons.mp hs0r with rfl | h
        · exact absurd hvv (hnoS s0 hs0S)
        · exact h
      exact ih st hstack hnoS huniq ⟨s0, hs0S, hs0vs⟩
    · rw [if_neg hvv]
      have hrsv : st.rec_stack ⊆ st.visited := by
        rw [hstack]; exact Finset.empty_subset _
      by_cases hvsupp : v ∈ supportF edges
      · have hfuel : ((supportF edges).filter (fun x => x ∉ st.visited)).card
            < (supportF edges).card + 1 :=
          Nat.lt_succ_of_le (Finset.card_filter_le _ _)
        have hrs0 : st.rec_stack = ([] : List α).toFinset := by
          simpa using hstack
        rcases dfs_scc_dichotomy edges S hclosed hSsucc
            ((supportF edges).card + 1) v [] st hfuel hvsupp hrs0
            List.chain'_nil (fun h => absurd rfl h)
            (fun x hxS hxv => absurd hxv (hnoS x hxS)) hrsv huniq with hcyc | hnoch
        · obtain ⟨c, hc, hcne, hcS⟩ := hcyc
          exact ⟨c, foldl_roots_cycles_mono edges vs _ c hc, hcne, hcS⟩
        · by_cases hvS : v ∈ S
          · exfalso
            have hvvis : v ∈ (dfs (adjList edges) ((supportF edges).card + 1)
                v [] st).visited :=
              dfs_visits _ _ v [] st (by omega) hrsv
            exact hvv (hnoch v hvS hvvis)
          · have hs0vs : s0 ∈ vs := by
              rcases List.mem_cons.mp hs0r with rfl | h
              · exact absurd hs0S hvS
              · exact h
            refine ih _ ?_ ?_ ?_ ⟨s0, hs0S, hs0vs⟩
            · rw [dfs_rec_stack_eq]; exact hstack
            · intro x hxS hxv
              exact hnoS x hxS (hnoch x hxS hxv)
            · exact dfs_uniqueInv _ _ v [] st huniq
      · -- root outside the graph: it is marked and nothing else happens
        have hvrs : v ∉ st.rec_stack := by rw [hstack]; exact Finset.not_mem_empty v
        rw [dfs_no_succ_visited (adjList edges) _ v [] st
          (adjList_eq_nil_of_not_support edges v hvsupp) hvrs hvv]
        have hs0vs : s0 ∈ vs := by
          rcases List.mem_cons.mp hs0r with rfl | h
          · exact absurd (hSsub s0 hs0S) hvsupp
          · exact h
        refine ih _ ?_ ?_ huniq ⟨s0, hs0S, hs0vs⟩
        · rw [hstack]
          simp
        · intro x hxS hxv
          rcases Finset.mem_insert.mp hxv with rfl | hx'
          · exact hvsupp (hSsub x hxS)
          · exact hnoS x hxS hx'

end TopLevel

/-- **C2**: for every finite hierarchy graph and every strongly connected
cluster (the set of nodes mutually reachable with some node `r`) containing a
directed cycle (an internal edge), `detect_cycles` returns at least one cycle
whose vertices all lie in that cluster — for any traversal order of root
candidates covering the edge sources, and in particular for the actual root
order used by the program. -/
theorem claim_C2 (edges : List (Ident × Ident)) (roots : List Ident) (r : Ident)
    (hroots : ∀ e ∈ edges, e.1 ∈ roots)
    (hcyc : ∃ u ∈ sccOf edges r, ∃ w ∈ sccOf edges r, EdgeRel edges u w) :
    (∃ c ∈ detect_cycles_from edges roots, c ≠ [] ∧ ∀ x ∈ c, x ∈ sccOf edges r) ∧
    (∃ c ∈ detect_cycles edges, c ≠ [] ∧ ∀ x ∈ c, x ∈ sccOf edges r) := by
  have hSsucc := sccOf_succ edges r hcyc
  have hSsub := sccOf_mem_support edges r hcyc
  obtain ⟨u, hu, w, hw, heuw⟩ := hcyc
  have hmain : ∀ rts : List Ident, u ∈ rts →
      ∃ c ∈ detect_cycles_from edges rts, c ≠ [] ∧ ∀ x ∈ c, x ∈ sccOf edges r := by
    intro rts hurts
    exact rootsFold_scc edges (sccOf edges r)
      (fun w' hw' z h1 h2 => sccOf_closed edges r hw' h1 h2) hSsucc hSsub rts initDfs rfl
      (fun x _ => Finset.not_mem_empty x) (fun m hm => absurd hm (Finset.not_mem_empty m))
      ⟨u, hu, hurts⟩
  refine ⟨hmain roots (hroots (u, w) heuw), hmain _ ?_⟩
  rw [mem_dedupF]
  exact List.mem_map.mpr ⟨(u, w), heuw, rfl⟩

/-- Witness for **C2** on the two-node mutual cycle `A ⇄ B`. -/
theorem claim_C2_witness :
    ∃ c ∈ detect_cycles [("A".toList, "B".toList), ("B".toList, "A".toList)],
      c ≠ [] ∧ ∀ x ∈ c,
        x ∈ sccOf [("A".toList, "B".toList), ("B".toList, "A".toList)] "A".toList := by
  refine (claim_C2 [("A".toList, "B".toList), ("B".toList, "A".toList)]
    ["A".toList, "B".toList] "A".toList (by decide)
    ⟨"A".toList, ⟨Relation.ReflTransGen.refl, Relation.ReflTransGen.refl⟩,
     "B".toList,
     ⟨Relation.ReflTransGen.single (show _ ∈ _ by decide),
      Relation.ReflTransGen.single (show _ ∈ _ by decide)⟩,
     show _ ∈ _ by decide⟩).2

/-! ## The Dominance Violation Detector (`detect_broader_violations`)

The Python function builds a `networkx` digraph from the dominance edge set,
computes every node's descendant set (`nx.descendants`: all nodes reachable
from the node, the node itself excluded), and for every ordered pair
`(src, dst)` with `dst` a descendant of `src` and `src` a descendant of
`dst` emits a violation whose witness cycle is
`nx.shortest_path(src, dst) + nx.shortest_path(dst, src)[1:]`.
The library calls are modelled by verified counterparts: reachable sets are
computed as saturated balls of the step relation, and shortest paths by
searching for the least radius at which the target enters the ball and
walking one step back at a time. -/

section Violations

variable {α : Type} [DecidableEq α]

/-- A reported broader-than violation: `{"source": …, "target": …, "cycle": …}`. -/
structure Violation (α : Type) where
  source : α
  target : α
  cycle : List α

/-- The graph nodes in `networkx` insertion order (first appearance while
adding the edges). -/
def nodesOf (edges : List (α × α)) : List α :=
  dedupF (edges.flatMap (fun e => [e.1, e.2]))

/-- The successor list of `v` (each successor once, in insertion order). -/
def adjD (edges : List (α × α)) (v : α) : List α :=
  dedupF ((edges.filter (fun e => decide (e.1 = v))).map Prod.snd)

theorem mem_adjD (edges : List (α × α)) (v w : α) :
    w ∈ adjD edges v ↔ EdgeRel edges v w := by
  rw [adjD, mem_dedupF]
  simp only [List.mem_map, List.mem_filter, decide_eq_true_eq, EdgeRel]
  constructor
  · rintro ⟨⟨a, b⟩, ⟨hmem, rfl⟩, rfl⟩
    exact hmem
  · intro h
    exact ⟨(v, w), ⟨h, rfl⟩, rfl⟩

/-- The ball of radius `k` around `v`: nodes reachable in at most `k` hops. -/
def ballF (edges : List (α × α)) (v : α) : Nat → Finset α
  | 0 => {v}
  | k + 1 =>
    ballF edges v k ∪ (ballF edges v k).biUnion (fun u => (adjD edges u).toFinset)

theorem ballF_subset_succ (edges : List (α × α)) (v : α) (k : Nat) :
    ballF edges v k ⊆ ballF edges v (k + 1) := by
  rw [ballF]
  exact Finset.subset_union_left

theorem ballF_mono (edges : List (α × α)) (v : α) {k m : Nat} (h : k ≤ m) :
    ballF edges v k ⊆ ballF edges v m := by
  induction h with
  | refl => exact subset_rfl
  | step h ih => exact ih.trans (ballF_subset_succ edges v _)

theorem ballF_sound (edges : List (α × α)) (v : α) :
    ∀ (k : Nat), ∀ x ∈ ballF edges v k, Reaches edges v x := by
  intro k
  induction k with
  | zero =>
    intro x hx
    rw [ballF, Finset.mem_singleton] at hx
    rw [hx]
    exact Relation.ReflTransGen.refl
  | succ k ih =>
    intro x hx
    rw [ballF, Finset.mem_union] at hx
    rcases hx with hx | hx
    · exact ih x hx
    · obtain ⟨u, hu, hxu⟩ := Finset.mem_biUnion.mp hx
      exact (ih u hu).tail ((mem_adjD edges u x).mp (List.mem_toFinset.mp hxu))

theorem ballF_step (edges : List (α × α)) (v : α) (k : Nat) {u x : α}
    (hu : u ∈ ballF edges v k) (hx : EdgeRel edges u x) :
    x ∈ ballF edges v (k + 1) := by
  rw [ballF, Finset.mem_union]
  exact Or.inr (Finset.mem_biUnion.mpr
    ⟨u, hu, List.mem_toFinset.mpr ((mem_adjD edges u x).mpr hx)⟩)

theorem reaches_mem_ballF (edges : List (α × α)) (v x : α) (h : Reaches edges v x) :
    ∃ k, x ∈ ballF edges v k := by
  induction h with
  | refl => exact ⟨0, by rw [ballF]; exact Finset.mem_singleton_self v⟩
  | tail _ hstep ih =>
    obtain ⟨k, hk⟩ := ih
    exact ⟨k + 1, ballF_step edges v k hk hstep⟩

theorem ballF_subset_support (edges : List (α × α)) (v : α) :
    ∀ (k : Nat), ballF edges v k ⊆ insert v (supportF edges) := by
  intro k
  induction k with
  | zero =>
    rw [ballF]
    intro x hx
    rw [Finset.mem_singleton] at hx
    rw [hx]
    exact Finset.mem_insert_self v _
  | succ k ih =>
    rw [ballF]
    intro x hx
    rcases Finset.mem_union.mp hx with hx | hx
    · exact ih hx
    · obtain ⟨u, _, hxu⟩ := Finset.mem_biUnion.mp hx
      exact Finset.mem_insert_of_mem
        (target_mem_supportF edges ((mem_adjD edges u x).mp (List.mem_toFinset.mp hxu)))

theorem ballF_fix (edges : List (α × α)) (v : α) {k : Nat}
    (hfix : ballF edges v (k + 1) = ballF edges v k) :
    ∀ m, k ≤ m → ballF edges v m = ballF edges v k := by
  intro m hm
  induction hm with
  | refl => rfl
  | step h ih =>
    rw [ballF, ih, ← ballF]
    exact hfix

theorem ballF_growth (edges : List (α × α)) (v : α) :
    ∀ (k : Nat), (∀ j < k, ballF edges v (j + 1) ≠ ballF edges v j) →
      k + 1 ≤ (ballF edges v k).card := by
  intro k
  induction k with
  | zero =>
    intro _
    rw [ballF]
    simp
  | succ k ih =>
    intro hstrict
    have h1 : k + 1 ≤ (ballF edges v k).card :=
      ih (fun j hj => hstrict j (Nat.lt_succ_of_lt hj))
    have hssub : ballF edges v k ⊂ ballF edges v (k + 1) :=
      (Finset.ssubset_iff_subset_ne).mpr
        ⟨ballF_subset_succ edges v k, fun h => hstrict k (Nat.lt_succ_self k) h.symm⟩
    have := Finset.card_lt_card hssub
    omega

/-- The saturated reachable set of `v`. -/
def reachSet (edges : List (α × α)) (v : α) : Finset α :=
  ballF edges v ((supportF edges).card + 1)

theorem ballF_subset_reachSet (edges : List (α × α)) (v : α) :
    ∀ m, ballF edges v m ⊆ reachSet edges v := by
  intro m
  by_cases hstrict : ∀ j < (supportF edges).card + 1,
      ballF edges v (j + 1) ≠ ballF edges v j
  · exfalso
    have hg := ballF_growth edges v ((supportF edges).card + 1) hstrict
    have hsub := Finset.card_le_card
      (ballF_subset_support edges v ((supportF edges).card + 1))
    have hins := Finset.card_insert_le v (supportF edges)
    omega
  · push_neg at hstrict
    obtain ⟨j, hj, hfix⟩ := hstrict
    have hfix' := ballF_fix edges v hfix
    by_cases hm : m ≤ (supportF edges).card + 1
    · exact ballF_mono edges v hm
    · rw [hfix' m (by omega), reachSet,
        hfix' ((supportF edges).card + 1) (by omega)]

theorem reachSet_iff (edges : List (α × α)) (v x : α) :
    x ∈ reachSet edges v ↔ Reaches edges v x := by
  constructor
  · exact ballF_sound edges v _ x
  · intro h
    obtain ⟨k, hk⟩ := reaches_mem_ballF edges v x h
    exact ballF_subset_reachSet edges v k hk

/-- `nx.descendants(G, v)`: everything reachable from `v`, except `v`. -/
def descF (edges : List (α × α)) (v : α) : Finset α :=
  (reachSet edges v).erase v

theorem descF_iff (edges : List (α × α)) (v x : α) :
    x ∈ descF edges v ↔ x ≠ v ∧ Reaches edges v x := by
  rw [descF, Finset.mem_erase, reachSet_iff]

end Violations

section Paths

variable {α : Type} [DecidableEq α]

/-- `p` is a directed path from `a` to `b`: nonempty, starts at `a`, ends at
`b`, consecutive elements joined by edges.  (`nx.shortest_path` returns paths
as node lists in this shape.) -/
def IsPath (edges : List (α × α)) (p : List α) (a b : α) : Prop :=
  p.head? = some a ∧ p.getLast? = some b ∧ List.Chain' (EdgeRel edges) p

theorem isPath_singleton (edges : List (α × α)) (a : α) :
    IsPath edges [a] a a := ⟨rfl, rfl, List.chain'_singleton a⟩

theorem isPath_concat (edges : List (α × α)) {p : List α} {a u x : α}
    (hp : IsPath edges p a u) (he : EdgeRel edges u x) :
    IsPath edges (p ++ [x]) a x := by
  obtain ⟨h1, h2, h3⟩ := hp
  cases p with
  | nil => cases h1
  | cons y t =>
    refine ⟨h1, List.getLast?_concat _, ?_⟩
    rw [List.chain'_append]
    refine ⟨h3, List.chain'_singleton x, ?_⟩
    intro z hz w hw
    have hz' : z = u := by
      rw [h2] at hz
      simpa using hz.symm
    have hw' : w = x := by simpa using hw.symm
    rw [hz', hw']
    exact he

/-- A path with a single node has equal endpoints. -/
theorem isPath_short (edges : List (α × α)) {p : List α} {a x : α}
    (hp : IsPath edges p a x) (hlen : p.length ≤ 1) : x = a := by
  obtain ⟨h1, h2, _⟩ := hp
  cases p with
  | nil => cases h1
  | cons y t =>
    cases t with
    | nil =>
      have hya : y = a := by simpa using h1
      have hyx : y = x := by simpa using h2
      rw [← hyx, hya]
    | cons z t' => simp at hlen

/-- A path of at most `k + 1` nodes ends inside the radius-`k` ball of its
start. -/
theorem isPath_mem_ballF (edges : List (α × α)) :
    ∀ (k : Nat) (p : List α) (a x : α), IsPath edges p a x → p.length ≤ k + 1 →
      x ∈ ballF edges a k := by
  intro k
  induction k with
  | zero =>
    intro p a x hp hlen
    rw [ballF, Finset.mem_singleton]
    exact isPath_short edges hp hlen
  | succ k ih =>
    intro p a x hp hlen
    by_cases hshort : p.length ≤ 1
    · have hx : x = a := isPath_short edges hp hshort
      have h0 : x ∈ ballF edges a 0 := by
        rw [ballF, Finset.mem_singleton, hx]
      exact ballF_mono edges a (Nat.zero_le _) h0
    · push_neg at hshort
      rcases List.eq_nil_or_concat p with rfl | ⟨q, z, rfl⟩
      · cases hp.1
      · rw [List.concat_eq_append] at hp hlen hshort
        obtain ⟨h1, h2, h3⟩ := hp
        have hzx : z = x := by
          rw [List.getLast?_concat] at h2
          simpa using h2
        subst hzx
        have hq : q ≠ [] := by
          intro h0
          rw [h0] at hshort
          simp at hshort
        have hch := List.chain'_append.mp h3
        have hu := List.getLast?_eq_getLast q hq
        have hedge : EdgeRel edges (q.getLast hq) z := hch.2.2 _ hu z rfl
        have hqpath : IsPath edges q a (q.getLast hq) := by
          refine ⟨?_, hu, hch.1⟩
          cases q with
          | nil => cases hq rfl
          | cons w t => simpa using h1
        have hqlen : q.length ≤ k + 1 := by
          have hl2 : (q ++ [z]).length = q.length + 1 := by simp
          omega
        exact ballF_step edges a k (ih q a _ hqpath hqlen) hedge

/-- Linear search for the least index at or above `c`, among the next `n`
indices, satisfying `p`. -/
def findLeast (p : Nat → Bool) : Nat → Nat → Option Nat
  | _, 0 => none
  | c, n + 1 => if p c then some c else findLeast p (c + 1) n

theorem findLeast_spec (p : Nat → Bool) :
    ∀ (n c k : Nat), findLeast p c n = some k →
      p k = true ∧ c ≤ k ∧ ∀ j, c ≤ j → j < k → p j = false := by
  intro n
  induction n with
  | zero => intro c k h; cases h
  | succ n ih =>
    intro c k h
    rw [findLeast] at h
    by_cases hc : p c
    · rw [if_pos hc] at h
      cases h
      exact ⟨hc, Nat.le_refl _, fun j h1 h2 => absurd h1 (by omega)⟩
    · rw [if_neg hc] at h
      obtain ⟨hk, hck, hmin⟩ := ih (c + 1) k h
      refine ⟨hk, by omega, fun j h1 h2 => ?_⟩
      rcases Nat.eq_or_lt_of_le h1 with rfl | h1'
      · exact Bool.eq_false_iff.mpr hc
      · exact hmin j h1' h2

theorem findLeast_complete (p : Nat → Bool) :
    ∀ (n c m : Nat), c ≤ m → m < c + n → p m = true →
      ∃ k, findLeast p c n = some k ∧ k ≤ m := by
  intro n
  induction n with
  | zero => intro c m h1 h2; omega
  | succ n ih =>
    intro c m h1 h2 hm
    rw [findLeast]
    by_cases hc : p c
    · exact ⟨c, by rw [if_pos hc], h1⟩
    · rw [if_neg hc]
      have hcm : c ≠ m := by
        rintro rfl
        exact hc hm
      obtain ⟨k, hk, hkm⟩ := ih (c + 1) m (by omega) (by omega) hm
      exact ⟨k, hk, hkm⟩

/-- Every ball member is the start node or an edge target. -/
theorem ballF_mem_cand (edges : List (α × α)) (v : α) :
    ∀ (k : Nat) (u : α), u ∈ ballF edges v k → u ∈ (v :: edges.map Prod.snd) := by
  intro k
  induction k with
  | zero =>
    intro u hu
    rw [ballF, Finset.mem_singleton] at hu
    rw [hu]
    exact List.mem_cons_self _ _
  | succ k ih =>
    intro u hu
    rw [ballF, Finset.mem_union] at hu
    rcases hu with hu | hu
    · exact ih u hu
    · obtain ⟨w, _, hw⟩ := Finset.mem_biUnion.mp hu
      have := (mem_adjD edges w u).mp (List.mem_toFinset.mp hw)
      exact List.mem_cons_of_mem _ (List.mem_map.mpr ⟨(w, u), this, rfl⟩)

/-- Walk a shortest path backwards out of the balls: a node that first enters
the ball at radius `k` has a predecessor in the ball of radius `k - 1`. -/
def buildBack (edges : List (α × α)) (v : α) : Nat → α → List α
  | 0, x => [x]
  | k + 1, x =>
    if x ∈ ballF edges v k then buildBack edges v k x
    else
      match (v :: edges.map Prod.snd).find?
          (fun u => decide (u ∈ ballF edges v k) && decide (x ∈ adjD edges u)) with
      | some u => buildBack edges v k u ++ [x]
      | none => [x]

theorem buildBack_spec (edges : List (α × α)) (v : α) :
    ∀ (k : Nat) (x : α), x ∈ ballF edges v k →
      IsPath edges (buildBack edges v k x) v x ∧
      (buildBack edges v k x).length ≤ k + 1 := by
  intro k
  induction k with
  | zero =>
    intro x hx
    rw [ballF, Finset.mem_singleton] at hx
    subst hx
    exact ⟨isPath_singleton edges x, by simp [buildBack]⟩
  | succ k ih =>
    intro x hx
    rw [buildBack]
    by_cases hxk : x ∈ ballF edges v k
    · rw [if_pos hxk]
      obtain ⟨hp, hl⟩ := ih x hxk
      exact ⟨hp, by omega⟩
    · rw [if_neg hxk]
      have hex : ∃ u, u ∈ ballF edges v k ∧ x ∈ adjD edges u := by
        rw [ballF, Finset.mem_union] at hx
        rcases hx with hx | hx
        · exact absurd hx hxk
        · obtain ⟨u, hu, hxu⟩ := Finset.mem_biUnion.mp hx
          exact ⟨u, hu, List.mem_toFinset.mp hxu⟩
      cases hfind : (v :: edges.map Prod.snd).find?
          (fun u => decide (u ∈ ballF edges v k) && decide (x ∈ adjD edges u)) with
      | none =>
        exfalso
        obtain ⟨u, hu, hxu⟩ := hex
        have hnone := List.find?_eq_none.mp hfind u (ballF_mem_cand edges v k u hu)
        simp [hu, hxu] at hnone
      | some u =>
        show IsPath edges (buildBack edges v k u ++ [x]) v x ∧
          (buildBack edges v k u ++ [x]).length ≤ k + 1 + 1
        have hpred := List.find?_some hfind
        simp only [Bool.and_eq_true, decide_eq_true_eq] at hpred
        obtain ⟨hp, hl⟩ := ih u hpred.1
        refine ⟨isPath_concat edges hp ((mem_adjD edges u x).mp hpred.2), ?_⟩
        have hlen2 : (buildBack edges v k u ++ [x]).length
            = (buildBack edges v k u).length + 1 := by simp
        omega

/-- The distance from `v` to `x`: the least ball radius containing `x`
(defaults to `0` when `x` is unreachable). -/
def distB (edges : List (α × α)) (v x : α) : Nat :=
  (findLeast (fun k => decide (x ∈ ballF edges v k)) 0 ((supportF edges).card + 2)).getD 0

/-- The modelled `nx.shortest_path(G, v, x)`. -/
def spath (edges : List (α × α)) (v x : α) : List α :=
  buildBack edges v (distB edges v x) x

/-- `spath` returns a path from `v` to `x` of minimal length whenever `x` is
reachable from `v`. -/
theorem spath_spec (edges : List (α × α)) (v x : α) (h : Reaches edges v x) :
    IsPath edges (spath edges v x) v x ∧
    ∀ q, IsPath edges q v x → (spath edges v x).length ≤ q.length := by
  have hx : x ∈ ballF edges v ((supportF edges).card + 1) :=
    (reachSet_iff edges v x).mpr h
  obtain ⟨k, hk, hkle⟩ := findLeast_complete
    (fun k => decide (x ∈ ballF edges v k)) ((supportF edges).card + 2) 0
    ((supportF edges).card + 1) (Nat.zero_le _) (by omega) (by simpa using hx)
  obtain ⟨hpk, -, hmin⟩ := findLeast_spec _ _ _ _ hk
  have hd : distB edges v x = k := by rw [distB, hk]; rfl
  have hxk : x ∈ ballF edges v k := by simpa using hpk
  obtain ⟨hp, hl⟩ := buildBack_spec edges v k x hxk
  rw [spath, hd]
  refine ⟨hp, fun q hq => ?_⟩
  have hq1 : 1 ≤ q.length := by
    rcases q with _ | ⟨y, t⟩
    · cases hq.1
    · simp
  have hqball : x ∈ ballF edges v (q.length - 1) :=
    isPath_mem_ballF edges (q.length - 1) q v x hq (by omega)
  have hkq : k ≤ q.length - 1 := by
    by_contra hgt
    push_neg at hgt
    have hfalse := hmin (q.length - 1) (Nat.zero_le _) hgt
    rw [decide_eq_false_iff_not] at hfalse
    exact hfalse hqball
  omega

end Paths

section Detector

variable {α : Type} [DecidableEq α]

theorem nodup_dedupFGo : ∀ (l seen : List α), (dedupFGo seen l).Nodup := by
  intro l
  induction l with
  | nil => intro seen; exact List.nodup_nil
  | cons a l ih =>
    intro seen
    rw [dedupFGo]
    by_cases ha : a ∈ seen
    · rw [if_pos ha]
      exact ih seen
    · rw [if_neg ha]
      refine List.nodup_cons.mpr ⟨?_, ih (a :: seen)⟩
      intro hmem
      exact ((mem_dedupFGo l (a :: seen) a).mp hmem).2 (List.mem_cons_self a seen)

theorem nodup_dedupF (l : List α) : (dedupF l).Nodup := nodup_dedupFGo l []

theorem nodup_nodesOf (edges : List (α × α)) : (nodesOf edges).Nodup :=
  nodup_dedupF _

theorem mem_nodesOf (edges : List (α × α)) (x : α) :
    x ∈ nodesOf edges ↔ ∃ e ∈ edges, x = e.1 ∨ x = e.2 := by
  rw [nodesOf, mem_dedupF]
  simp only [List.mem_flatMap, List.mem_cons, List.not_mem_nil, or_false]

theorem desc_mem_nodesOf (edges : List (α × α)) (src dst : α)
    (h : dst ∈ descF edges src) : dst ∈ nodesOf edges := by
  rw [descF_iff] at h
  obtain ⟨hne, hreach⟩ := h
  rcases Relation.ReflTransGen.cases_tail hreach with heq | ⟨w, _, hw⟩
  · exact absurd heq hne
  · exact (mem_nodesOf edges dst).mpr ⟨(w, dst), hw, Or.inr rfl⟩

theorem reach_src_mem_nodesOf (edges : List (α × α)) (a b : α)
    (hne : a ≠ b) (h : Reaches edges a b) : a ∈ nodesOf edges := by
  rcases Relation.ReflTransGen.cases_head h with heq | ⟨w, hw, _⟩
  · exact absurd heq hne
  · exact (mem_nodesOf edges a).mpr ⟨(a, w), hw, Or.inl rfl⟩

/-- The descendants of `src`, as a list in graph-node order (the Python code
iterates the descendant *set*; any enumeration without repetition is a
faithful model of that iteration). -/
def descList (edges : List (α × α)) (src : α) : List α :=
  (nodesOf edges).filter (fun dst => decide (dst ∈ descF edges src))

theorem mem_descList (edges : List (α × α)) (src dst : α) :
    dst ∈ descList edges src ↔ dst ∈ descF edges src := by
  rw [descList, List.mem_filter]
  simp only [decide_eq_true_eq]
  exact ⟨fun h => h.2, fun h => ⟨desc_mem_nodesOf edges src dst h, h⟩⟩

theorem nodup_descList (edges : List (α × α)) (src : α) :
    (descList edges src).Nodup :=
  (nodup_nodesOf edges).filter _

/-- `detect_broader_violations`: for every node `src` and every descendant
`dst` of `src` such that `src` is in turn a descendant of `dst`, emit the
violation whose witness cycle is the shortest path `src → … → dst` followed
by the shortest path `dst → … → src` with the shared endpoint `dst` dropped
from the second part. -/
def detect_broader_violations (edges : List (α × α)) : List (Violation α) :=
  (nodesOf edges).flatMap (fun src =>
    ((descList edges src).filter (fun dst => decide (src ∈ descF edges dst))).map
      (fun dst =>
        { source := src, target := dst,
          cycle := spath edges src dst ++ (spath edges dst src).drop 1 }))

theorem countP_flatMap_sum {β γ : Type} (f : β → List γ) (p : γ → Bool) :
    ∀ l : List β, ((l.flatMap f).countP p) = (l.map (fun x => (f x).countP p)).sum := by
  intro l
  induction l with
  | nil => rfl
  | cons x t ih =>
    rw [List.flatMap_cons, List.countP_append, List.map_cons, List.sum_cons, ih]

theorem sum_map_eq_single {β : Type} [DecidableEq β] :
    ∀ (l : List β), l.Nodup → ∀ (a : β) (g : β → Nat), (∀ x ∈ l, x ≠ a → g x = 0) →
      (l.map g).sum = if a ∈ l then g a else 0 := by
  intro l
  induction l with
  | nil => intro _ a g _; simp
  | cons x t ih =>
    intro hnd a g hg
    obtain ⟨hxt, hnd'⟩ := List.nodup_cons.mp hnd
    rw [List.map_cons, List.sum_cons]
    by_cases hxa : x = a
    · subst hxa
      have hts : (t.map g).sum = 0 :=
        List.sum_eq_zero (by
          intro y hy
          obtain ⟨z, hz, rfl⟩ := List.mem_map.mp hy
          exact hg z (List.mem_cons_of_mem _ hz) (fun hza => hxt (hza ▸ hz)))
      rw [hts, if_pos (List.mem_cons_self x t)]
      omega
    · rw [hg x (List.mem_cons_self x t) hxa,
        ih hnd' a g (fun z hz => hg z (List.mem_cons_of_mem _ hz))]
      have hmem : (a ∈ x :: t) ↔ (a ∈ t) := by
        rw [List.mem_cons]
        exact ⟨fun h => h.resolve_left (fun h' => hxa h'.symm), Or.inr⟩
      by_cases hat : a ∈ t
      · rw [if_pos hat, if_pos (hmem.mpr hat)]
        omega
      · rw [if_neg hat, if_neg (fun h => hat (hmem.mp h))]

theorem countP_eq_ite_mem {β : Type} [DecidableEq β] :
    ∀ (l : List β), l.Nodup → ∀ (b : β),
      l.countP (fun x => decide (x = b)) = if b ∈ l then 1 else 0 := by
  intro l
  induction l with
  | nil => intro _ b; simp
  | cons x t ih =>
    intro hnd b
    obtain ⟨hxt, hnd'⟩ := List.nodup_cons.mp hnd
    rw [List.countP_cons, ih hnd' b]
    by_cases hxb : x = b
    · subst hxb
      rw [if_neg hxt, if_pos (List.mem_cons_self x t)]
      simp
    · have hmem : (b ∈ x :: t) ↔ (b ∈ t) := by
        rw [List.mem_cons]
        exact ⟨fun h => h.resolve_left (fun h' => hxb h'.symm), Or.inr⟩
      simp only [decide_eq_true_eq, hxb, if_false]
      by_cases hbt : b ∈ t
      · rw [if_pos hbt, if_pos (hmem.mpr hbt)]
      · rw [if_neg hbt, if_neg (fun h => hbt (hmem.mp h))]

end Detector

section CountViolations

variable {α : Type} [DecidableEq α]

/-- Violation counting: each ordered pair `(a, b)` with `b` a descendant of
`a` and `a` a descendant of `b` is reported exactly once, all other pairs
never. -/
theorem count_violations (edges : List (α × α)) (a b : α) :
    ((detect_broader_violations edges).countP
        (fun v => decide (v.source = a ∧ v.target = b)))
      = if a ∈ nodesOf edges ∧ b ∈ descF edges a ∧ a ∈ descF edges b
        then 1 else 0 := by
  rw [detect_broader_violations, countP_flatMap_sum]
  have hzero : ∀ src ∈ nodesOf edges, src ≠ a →
      (((descList edges src).filter (fun dst => decide (src ∈ descF edges dst))).map
        (fun dst =>
          ({ source := src, target := dst,
             cycle := spath edges src dst ++ (spath edges dst src).drop 1 } :
            Violation α))).countP
        (fun v => decide (v.source = a ∧ v.target = b)) = 0 := by
    intro src _ hne
    rw [List.countP_map, List.countP_eq_zero]
    intro dst _
    simp [Function.comp, hne]
  rw [sum_map_eq_single (nodesOf edges) (nodup_nodesOf edges) a _ hzero]
  by_cases ha : a ∈ nodesOf edges
  · rw [if_pos ha, List.countP_map]
    have hcomp : ((fun v : Violation α => decide (v.source = a ∧ v.target = b)) ∘
        (fun dst =>
          ({ source := a, target := dst,
             cycle := spath edges a dst ++ (spath edges dst a).drop 1 } :
            Violation α))) = fun dst => decide (dst = b) := by
      funext dst
      by_cases h : dst = b <;> simp [Function.comp, h]
    rw [hcomp, countP_eq_ite_mem _ ((nodup_descList edges a).filter _) b]
    have hmem : (b ∈ (descList edges a).filter
        (fun dst => decide (a ∈ descF edges dst))) ↔
        (b ∈ descF edges a ∧ a ∈ descF edges b) := by
      rw [List.mem_filter, mem_descList]
      simp
    by_cases hb : b ∈ descF edges a ∧ a ∈ descF edges b
    · rw [if_pos (hmem.mpr hb), if_pos ⟨ha, hb.1, hb.2⟩]
    · rw [if_neg (fun h => hb (hmem.mp h)), if_neg (fun h => hb ⟨h.2.1, h.2.2⟩)]
  · rw [if_neg ha, if_neg (fun h => ha h.1)]

end CountViolations

/-- **C1**: `detect_broader_violations` returns exactly one violation per
ordered pair `(src, dst)` of distinct mutually reachable nodes (both
directions of a mutually reachable pair are reported, nothing else is —
a strict chain yields zero), and each violation's witness cycle is a
shortest directed path from `src` to `dst` concatenated with a shortest
directed path from `dst` to `src`, the shared endpoint `dst` not
duplicated. -/
theorem claim_C1 (edges : List (Ident × Ident)) :
    (∀ a b : Ident,
      (a ≠ b ∧ Reaches edges a b ∧ Reaches edges b a →
        ((detect_broader_violations edges).filter
          (fun v => decide (v.source = a ∧ v.target = b))).length = 1) ∧
      (¬ (a ≠ b ∧ Reaches edges a b ∧ Reaches edges b a) →
        ((detect_broader_violations edges).filter
          (fun v => decide (v.source = a ∧ v.target = b))).length = 0)) ∧
    (∀ v ∈ detect_broader_violations edges,
      ∃ p q : List Ident,
        (IsPath edges p v.source v.target ∧
          ∀ p', IsPath edges p' v.source v.target → p.length ≤ p'.length) ∧
        (IsPath edges q v.target v.source ∧
          ∀ q', IsPath edges q' v.target v.source → q.length ≤ q'.length) ∧
        v.cycle = p ++ q.drop 1) ∧
    (detect_broader_violations
      [("A".toList, "B".toList), ("B".toList, "C".toList),
       ("C".toList, "D".toList)]).length = 0 := by
  refine ⟨fun a b => ⟨fun hmut => ?_, fun hnot => ?_⟩, fun v hv => ?_, by decide⟩
  · obtain ⟨hne, hab, hba⟩ := hmut
    rw [← List.countP_eq_length_filter, count_violations, if_pos]
    exact ⟨reach_src_mem_nodesOf edges a b hne hab,
      (descF_iff edges a b).mpr ⟨Ne.symm hne, hab⟩,
      (descF_iff edges b a).mpr ⟨hne, hba⟩⟩
  · rw [← List.countP_eq_length_filter, count_violations, if_neg]
    rintro ⟨-, hdab, hdba⟩
    rw [descF_iff] at hdab hdba
    exact hnot ⟨fun h => hdab.1 h.symm, hdab.2, hdba.2⟩
  · rw [detect_broader_violations] at hv
    obtain ⟨src, _, hv'⟩ := List.mem_flatMap.mp hv
    obtain ⟨dst, hdst, rfl⟩ := List.mem_map.mp hv'
    obtain ⟨hdesc, hcond⟩ := List.mem_filter.mp hdst
    rw [mem_descList, descF_iff] at hdesc
    have hcond' : src ∈ descF edges dst := by simpa using hcond
    rw [descF_iff] at hcond'
    obtain ⟨hsp, hspmin⟩ := spath_spec edges src dst hdesc.2
    obtain ⟨hsq, hsqmin⟩ := spath_spec edges dst src hcond'.2
    exact ⟨spath edges src dst, spath edges dst src,
      ⟨hsp, hspmin⟩, ⟨hsq, hsqmin⟩, rfl⟩

/-- Witness for **C1** on the two-node mutual dominance cycle `A ⇄ B`. -/
theorem claim_C1_witness :
    ((detect_broader_violations
        [("A".toList, "B".toList), ("B".toList, "A".toList)]).filter
      (fun v => decide (v.source = "A".toList ∧ v.target = "B".toList))).length = 1 :=
  ((claim_C1 [("A".toList, "B".toList), ("B".toList, "A".toList)]).1
      "A".toList "B".toList).1
    ⟨by decide, Relation.ReflTransGen.single (show _ ∈ _ by decide),
     Relation.ReflTransGen.single (show _ ∈ _ by decide)⟩

end UMLS
